import Mathlib

/-!
# HiPS native codec layer, verified

Shallow embedding of the C++ codec core of the HiPS linguistic-steganography
app (`app/src/main/cpp/`): the bit/byte conversions (`Format.cpp`), the
Huffman coding (`HuffmanCoding.cpp`, `Huffman.cpp`) and the arithmetic
coding (`Arithmetic.cpp`), together with proofs of the bit-IO laws, the
interval invariants, and the arithmetic round-trip property.

Modelling conventions:
* Java `ByteArray`s are `List ℕ` with each entry `< 256` (the embedding of
  `jbyte` uses its unsigned value: the C++ code only ever reads single bits
  of a byte, and `(b >> (7-j)) & 1` agrees on the signed and unsigned views).
* `std::vector<bool>` is `List Bool`, `long long` interval arithmetic is `ℤ`
  (with the two's-complement bit view for the `&`-mask bit extraction) or `ℕ`
  where the source value is an unsigned count.
* `float` probability arithmetic is embedded exactly over `ℚ`.  The protocol
  only requires the encoder and the decoder to perform bit-identical
  floating-point steps on identical inputs, and both sides of every theorem
  below go through the same embedded functions, so exact rationals are a
  faithful common refinement of the two float pipelines.
* The LLM backend (llama.cpp) is opaque: a `Model` supplies, per token
  history, the post-softmax post-suppression probability of each token
  (softmax output is non-negative, recorded as a field), the optional
  ASCII-NUL token, the first end-of-generation token, and the
  sentence-ending predicate.  `tokenize`/`detokenize` round-tripping is
  abstracted away: codecs are stated at the token level.
-/

namespace HiPS

/-! ## BitIO: `Format.cpp` -/

namespace Format

/-- One bit of a byte, MSB-first: C++ `(jBytes[i] >> (7 - j)) & 0b00000001`
(`Format.cpp`, `Format::asBitVector(JNIEnv*, jbyteArray)`). -/
def byteBit (b : ℕ) (j : ℕ) : Bool := b.testBit (7 - j)

/-- `Format::asBitVector(JNIEnv*, jbyteArray)`: byte array to MSB-first bit
vector; bit `i*8+j` is bit `7-j` of byte `i`. -/
def bytesAsBitVector (bytes : List ℕ) : List Bool :=
  (bytes.map (fun b => (List.range 8).map (byteBit b))).flatten

/-- C++ `(loong << 1) | bitVector[i]` fold of `Format::asLong`. -/
def asLong (bitVector : List Bool) : ℕ :=
  bitVector.foldl (fun loong b => 2 * loong + (if b then 1 else 0)) 0

/-- `Format::asByteArray`: packs `bitVector.size() / 8` bytes, silently
dropping any trailing `size % 8` bits (the byte count is the integer
division `bitVector.size() / 8`). Byte `i` collects bits `[8i, 8i+8)`
MSB-first, which is exactly `asLong` of that 8-bit slice. -/
def asByteArray (bitVector : List Bool) : List ℕ :=
  (List.range (bitVector.length / 8)).map
    (fun i => asLong ((bitVector.drop (8 * i)).take 8))

/-- `Format::asBitVectorWithoutPadding`: converts the byte array as is, reads
the padding length from the first 8 bits (the whole first byte), and drops the
first `8 + paddingLength` bits. -/
def asBitVectorWithoutPadding (bytes : List ℕ) : List Bool :=
  let bitVector := bytesAsBitVector bytes
  let paddingLength := asLong (bitVector.take 8)
  bitVector.drop (8 + paddingLength)

/-- `Format::asByteArrayWithPadding`: prepends `(8 - len % 8) % 8` zero bits,
then a byte holding that padding length, then packs the padded bits. -/
def asByteArrayWithPadding (bitVector : List Bool) : List ℕ :=
  let paddingLength := (8 - bitVector.length % 8) % 8
  let paddedBitVector := List.replicate paddingLength false ++ bitVector
  paddingLength ::
    (List.range (paddedBitVector.length / 8)).map
      (fun i => asLong ((paddedBitVector.drop (8 * i)).take 8))

/-- One bit of a `long long`, two's complement view: C++
`(loong & (1LL << (numberOfBits - 1 - i))) != 0`
(`Format::asBitVector(long long, int)`). `Int.ediv`/`Int.emod` give the
floor-division semantics of the `&` mask on a two's-complement integer. -/
def intBit (loong : ℤ) (k : ℕ) : Bool := (loong.ediv (2 ^ k)).emod 2 = 1

/-- `Format::asBitVector(long long, int)`: fixed-width MSB-first bit vector
of `loong`; returns `[]` when `numberOfBits == 0`. -/
def asBitVector (loong : ℤ) (numberOfBits : ℕ) : List Bool :=
  (List.range numberOfBits).map (fun i => intBit loong (numberOfBits - 1 - i))

end Format

/-! ## MSB-first bit vectors, recursively

`natBits` is the recursive characterization of `Format.asBitVector` on
non-negative inputs, used to drive the inductive proofs. -/

/-- MSB-first `P`-bit representation of `v`, by recursion on the width. -/
def natBits : ℕ → ℕ → List Bool
  | 0, _ => []
  | P + 1, v => decide (2 ^ P ≤ v) :: natBits P (v % 2 ^ P)

/-- Length of the shared leading-bit run of two bit vectors: embedding of
`Arithmetic::numberOfSameBitsFromBeginning` (the source's length-mismatch
throw is unreachable, both arguments always have length `jPrecision`). -/
def numberOfSameBitsFromBeginning : List Bool → List Bool → ℕ
  | b1 :: r1, b2 :: r2 => if b1 = b2 then numberOfSameBitsFromBeginning r1 r2 + 1 else 0
  | _, _ => 0

/-! ## Model abstraction: `LlamaCpp.cpp`, `Statistics.cpp` -/

/-- Token ids: `llama_token` values in `[0, vocabSize)`. -/
abbrev Token := ℕ

/-- The opaque LLM backend.  `probs hist` is the per-token probability array
after `Statistics::softmax` and `LlamaCpp::suppressSpecialTokens` for the
token history `hist` fed into the context so far (the llama.cpp KV cache
makes the logits a function of the full prefix; both codecs feed the same
prefixes).  Softmax output is non-negative and suppression writes zeros, so
non-negativity is part of the model. -/
structure Model where
  vocabSize : ℕ
  probs : List Token → Token → ℚ
  probs_nonneg : ∀ hist t, 0 ≤ probs hist t
  /-- `LlamaCpp::detokenize` restricted to a single token: the sequence of
  Unicode scalar values the token renders to. -/
  detok : Token → List ℕ
  /-- `LlamaCpp::getEndOfGeneration`: the first end-of-generation token. -/
  endOfGeneration : Token
  /-- `LlamaCpp::isEndOfSentence`: detokenization ends with `.`, `?`, `!`. -/
  endsSentence : Token → Bool

/-- `LlamaCpp::getAsciiNul` (LlamaCpp.cpp lines 68–76): scan the tokens
`0 .. vocabSize-1` and return the first whose detokenization compares equal
to the string literal `"\u0000"`.  That literal decays to a `const char*`,
and the null-terminated byte string it points to is EMPTY (its first byte is
the terminator), so the `std::string == const char*` comparison the C++
performs matches the first token whose detokenization is the EMPTY string;
a genuine one-character `U+0000` token, whose detokenization is `[0]`, can
never match.  `none` models the `std::runtime_error` throw when no token
renders empty. -/
def getAsciiNul (M : Model) : Option Token :=
  (List.range M.vocabSize).find? (fun t => M.detok t == ([] : List ℕ))

/-- Insertion step of the weight-descending sort.  The C++ sorts with the
comparator `pair1.second > pair2.second` (`std::sort`, unspecified on exact
ties); this stable insertion sort is the deterministic refinement used for
both encoder and decoder, and concrete inputs in the theorems below are
tie-free, where every comparator-correct sort produces the same list. -/
def insertDesc (p : Token × ℚ) : List (Token × ℚ) → List (Token × ℚ)
  | [] => [p]
  | q :: qs => if q.2 ≤ p.2 then p :: q :: qs else q :: insertDesc p qs

/-- Weight-descending sort of `(token, weight)` pairs. -/
def sortDesc : List (Token × ℚ) → List (Token × ℚ)
  | [] => []
  | p :: ps => insertDesc p (sortDesc ps)

/-- The `(token, probability)` pairs both codecs build each step: tokens
`0 .. vocabSize-1` paired with their post-suppression probabilities. -/
def tokenProbs (M : Model) (hist : List Token) : List (Token × ℚ) :=
  (List.range M.vocabSize).map (fun t => (t, M.probs hist t))

/-- `Arithmetic.cpp` encode lines 66–78 / decode lines 327–338: probabilities
scaled by `1/temperature`, sorted descending. -/
def scaledProbabilities (M : Model) (τ : ℚ) (hist : List Token) :
    List (Token × ℚ) :=
  sortDesc ((List.range M.vocabSize).map (fun t => (t, M.probs hist t / τ)))

/-- `Arithmetic::getTopProbability`: sort the unscaled probabilities
descending and take the first token.  `none` models the out-of-bounds
`topProbabilities[0]` on an empty vocabulary. -/
def getTopProbability (M : Model) (hist : List Token) : Option Token :=
  ((sortDesc (tokenProbs M hist)).head?).map Prod.fst

/-! ## Huffman coding: `HuffmanNode.cpp`, `HuffmanCoding.cpp`, `Huffman.cpp` -/

/-- `HuffmanNode`: the C++ class carries `(token, logit, left, right)` where
`token == -1` with two non-null children marks the nodes created by
`mergeHuffmanNodes` and leaves have a real token and null children; the two
constructors are those two shapes. -/
inductive HuffmanNode where
  | leaf (token : Token) (logit : ℚ)
  | merged (logit : ℚ) (left right : HuffmanNode)
  deriving Repr, DecidableEq

/-- The `logit` field of a node (a merged node stores the sum of its
children's logits). -/
def HuffmanNode.logit : HuffmanNode → ℚ
  | .leaf _ w => w
  | .merged w _ _ => w

/-- `HuffmanCoding::buildHuffmanTree`: one leaf per `(token, logit)` pair. -/
def buildHuffmanTree (tokenLogits : List (Token × ℚ)) : List HuffmanNode :=
  tokenLogits.map (fun p => HuffmanNode.leaf p.1 p.2)

/-- `top()`+`pop()` of the C++ `std::priority_queue<HuffmanNode*, vector,
Compare>` where `Compare` is `left->logit < right->logit`: a priority queue
whose comparator is less-than serves the LARGEST element first.  `popTop`
removes a maximal-logit element (earliest among exact ties, which the C++
leaves unspecified; concrete inputs below are tie-free at every stage). -/
def popTop : List HuffmanNode → Option (HuffmanNode × List HuffmanNode)
  | [] => none
  | n :: rest =>
      match popTop rest with
      | none => some (n, [])
      | some (m, others) =>
          if n.logit < m.logit then some (m, n :: others) else some (n, rest)

/-- Body of `HuffmanCoding::mergeHuffmanNodes`: while more than one node is
queued, pop the two served first (the two largest), push their merged parent.
The fuel is the queue length: each iteration shrinks the queue by one. -/
def mergeLoop : ℕ → List HuffmanNode → List HuffmanNode
  | 0, q => q
  | fuel + 1, q =>
      if q.length ≤ 1 then q
      else
        match popTop q with
        | none => q
        | some (left, q1) =>
            match popTop q1 with
            | none => q
            | some (right, q2) =>
                mergeLoop fuel
                  (q2 ++ [HuffmanNode.merged (left.logit + right.logit) left right])

/-- `HuffmanCoding::mergeHuffmanNodes`. -/
def mergeHuffmanNodes (q : List HuffmanNode) : List HuffmanNode :=
  mergeLoop q.length q

/-- `HuffmanCoding::generateHuffmanCodesRecursively`: left edge `0`, right
edge `1`; every leaf records its path.  The C++ writes into the
`huffmanCodes` `unordered_map`; an association list represents it (token
lists in the theorems are duplicate-free, where the two agree). -/
def generateHuffmanCodesRecursively :
    HuffmanNode → List Bool → List (Token × List Bool)
  | .leaf token _, currentHuffmanCode => [(token, currentHuffmanCode)]
  | .merged _ left right, currentHuffmanCode =>
      generateHuffmanCodesRecursively left (currentHuffmanCode ++ [false])
        ++ generateHuffmanCodesRecursively right (currentHuffmanCode ++ [true])

/-- Build the tree, merge, and generate the code table
(`buildHuffmanTree` + `mergeHuffmanNodes` + `generateHuffmanCodes`). -/
def huffmanCodes (tokenLogits : List (Token × ℚ)) : List (Token × List Bool) :=
  match popTop (mergeHuffmanNodes (buildHuffmanTree tokenLogits)) with
  | none => []
  | some (root, _) => generateHuffmanCodesRecursively root []

/-- `Huffman::getTopProbabilities`: all `(token, probability)` pairs sorted
descending and resized to `2^bitsPerToken` entries.  `std::vector::resize`
grows with value-initialized pairs, so a vocabulary smaller than `2^k` is
padded with `(0, 0.0f)` entries. -/
def getTopProbabilities (M : Model) (hist : List Token) (bitsPerToken : ℕ) :
    List (Token × ℚ) :=
  let top := (sortDesc (tokenProbs M hist)).take (2 ^ bitsPerToken)
  top ++ List.replicate (2 ^ bitsPerToken - top.length) (0, 0)

/-- `Java_..._Huffman_decode` at the token level: per cover token, rebuild
the per-step tree from the top `2^bitsPerToken` probabilities and append
`huffmanCodes[coverTextTokens[i]]`.  `unordered_map::operator[]`
default-constructs an empty code for a token that is not in the tree, so such
a token contributes no bits; the function has no failure path. -/
def huffmanDecode (M : Model) (bitsPerToken : ℕ) :
    List Token → List Token → List Bool
  | _, [] => []
  | hist, coverTextToken :: rest =>
      let topProbabilities := getTopProbabilities M hist bitsPerToken
      let codes := huffmanCodes topProbabilities
      ((codes.lookup coverTextToken).getD [])
        ++ huffmanDecode M bitsPerToken (hist ++ [coverTextToken]) rest

/-! ## Arithmetic coding: `Arithmetic.cpp` -/

/-- Failure modes of the embedded arithmetic codec.  `decodeMismatch` is the
`std::invalid_argument` throw of `Arithmetic_decode`; `noAsciiNul` the
`std::runtime_error` throw of `LlamaCpp::getAsciiNul`; `outOfFuel` is a
modelling device (the C++ while-loop ran longer than the given fuel);
`emptyVocabulary`, `tableOverflow` and `outOfBounds` mark reads the C++
performs past the end of a vector (undefined behavior). -/
inductive Err where
  | outOfFuel
  | noAsciiNul
  | emptyVocabulary
  | tableOverflow
  | decodeMismatch (position : ℕ)
  | outOfBounds (position : ℕ)
  deriving Repr, DecidableEq

/-- `std::round` on the working weights: round half away from zero, which for
the non-negative values arising at every reachable call site is
`⌊q + 1/2⌋`, clamped into `ℕ`. -/
def roundQ (q : ℚ) : ℕ := (⌊q + 1 / 2⌋).toNat

/-- The running prefix sums of `Arithmetic.cpp` lines 136–146: replace each
rounded probability by the cumulated probability. -/
def cumulate (acc : ℕ) : List (Token × ℕ) → List (Token × ℕ)
  | [] => []
  | (token, r) :: rest => (token, acc + r) :: cumulate (acc + r) rest

/-- Lines 80–106 (decode 340–354): the kept count
`k = min(max(2, |{weights ≥ 1/R}|), topK)`. -/
def keepCount (sorted : List (Token × ℚ)) (topK R : ℕ) : ℕ :=
  min (max 2 (sorted.countP (fun pair => 1 / (R : ℚ) ≤ pair.2))) topK

/-- Lines 108–134 (decode 356–377): keep the top `k` weights, rescale them by
`R / sum`, and round each to an integer (`std::round`).  When the C++ float
`sum` is `0.0f` the rescale divides by zero; the embedding's rational
division-by-zero returns 0 there. -/
def roundedTop (sorted : List (Token × ℚ)) (k R : ℕ) : List (Token × ℕ) :=
  let topScaledProbabilities := sorted.take k
  let sum : ℚ := (topScaledProbabilities.map Prod.snd).sum
  (topScaledProbabilities.map
      (fun pair => (pair.1, pair.2 * ((R : ℚ) / sum)))).map
    (fun pair => (pair.1, roundQ pair.2))

/-- Lines 148–172 (decode 389–408): overfill trim (`resize` by the count of
cumulated values exceeding the range — the cumulated values are
non-decreasing, so those entries form the tail), underfill shift of every
entry up by the gap `R - back()`, then shift by `lo` to absolute positions.
`back()` on an empty vector is undefined in C++; the embedding returns the
empty table there (the theorems' hypotheses keep to the defined paths). -/
def fixAndShift (R lo : ℕ) (cums : List (Token × ℕ)) : List (Token × ℕ) :=
  let trimmed := cums.take (cums.length - cums.countP (fun pair => R < pair.2))
  match trimmed.getLast? with
  | none => []
  | some last =>
      (trimmed.map (fun item => (item.1, item.2 + (R - last.2)))).map
        (fun item => (item.1, item.2 + lo))

/-- The per-step cumulative table of `Arithmetic.cpp` (encode lines 80–172,
decode identically lines 340–408): threshold count, top-`k` cut, rescale to
the interval range `R = hi - lo`, round to integers, prefix sums, overfill
trim, underfill shift, shift by `lo`. -/
def buildCumTable (sorted : List (Token × ℚ)) (topK lo hi : ℕ) :
    List (Token × ℕ) :=
  fixAndShift (hi - lo) lo
    (cumulate 0 (roundedTop sorted (keepCount sorted topK (hi - lo)) (hi - lo)))

/-- Lines 174–179 / 410–415: during binary conversion, overwrite the token of
the last table entry with the ASCII-NUL token. -/
def replaceLastToken (nul : Token) : List (Token × ℕ) → List (Token × ℕ)
  | [] => []
  | [entry] => [(nul, entry.2)]
  | entry :: rest => entry :: replaceLastToken nul rest

/-- Decode line 413: `scaledProbabilities[cumulated.size() - 1].first = nul`
(write into the sorted list at the index of the last table entry). -/
def setTokenAt (l : List (Token × ℚ)) (idx : ℕ) (nul : Token) :
    List (Token × ℚ) :=
  match l.get? idx with
  | some entry => l.set idx (nul, entry.2)
  | none => l

/-- Encode lines 184–196: the message slice `[i, min(i+P, len))`, zero-padded
on the right to length `P` (`cipherBitSubvector` + `resize`). -/
def cipherBitSubvector (m : List Bool) (i P : ℕ) : List Bool :=
  let sub := if i + P < m.length then (m.drop i).take P else m.drop i
  if m.length < i + P then sub ++ List.replicate (i + P - m.length) false
  else sub

/-- Proof infrastructure (not from the source): the `w`-bit window of the
message starting at cursor `i`, reading past the end as zeros.  On the
encoder's reachable cursors (`i ≤ m.length`) this equals
`cipherBitSubvector m i w`. -/
def msgWindow (m : List Bool) (i w : ℕ) : List Bool :=
  (List.range w).map (fun j => m.getD (i + j) false)

/-- Result of one arithmetic-sampling step of the encoder. -/
structure ArithStep where
  sampledToken : Token
  selectedSubinterval : ℕ
  numberOfEncodedBits : ℕ
  bottomBits : List Bool
  topBits : List Bool
  newLo : ℕ
  newHi : ℕ
  deriving Repr, DecidableEq

/-- One arithmetic-sampling step of `Arithmetic_encode` (lines 64–253): build
the table, pick the first sub-interval whose cumulated probability exceeds
the next `P` message bits, narrow the interval, count the fixed leading bits
(forced to 1 during decompression when it would be 0), and shift the
interval.  `.error .tableOverflow` models the out-of-bounds access after
`std::find_if` returns `end()`. -/
def encodeStep (M : Model) (τ : ℚ) (topK P : ℕ) (isDecompression : Bool)
    (hist : List Token) (lo hi : ℕ) (m : List Bool) (i : ℕ) :
    Except Err ArithStep := do
  let sorted := scaledProbabilities M τ hist
  let table0 := buildCumTable sorted topK lo hi
  let table ←
    if isDecompression then
      match getAsciiNul M with
      | none => throw Err.noAsciiNul
      | some nul => pure (replaceLastToken nul table0)
    else
      pure table0
  let x := Format.asLong (cipherBitSubvector m i P)
  let selectedSubinterval := table.findIdx (fun pair => x < pair.2)
  match table.get? selectedSubinterval with
  | none => throw Err.tableOverflow
  | some entry =>
      let newIntervalBottom := if selectedSubinterval = 0 then lo
        else ((table.get? (selectedSubinterval - 1)).getD (0, 0)).2
      let newIntervalTop := entry.2
      let newIntervalBottomBitsInclusive :=
        Format.asBitVector (newIntervalBottom : ℤ) P
      let newIntervalTopBitsInclusive :=
        Format.asBitVector ((newIntervalTop : ℤ) - 1) P
      let n0 := numberOfSameBitsFromBeginning newIntervalBottomBitsInclusive
        newIntervalTopBitsInclusive
      let numberOfEncodedBits := if isDecompression && n0 == 0 then 1 else n0
      let newIntervalBottomBits :=
        newIntervalBottomBitsInclusive.drop numberOfEncodedBits
          ++ List.replicate numberOfEncodedBits false
      let newIntervalTopBits :=
        newIntervalTopBitsInclusive.drop numberOfEncodedBits
          ++ List.replicate numberOfEncodedBits true
      pure { sampledToken := entry.1
             selectedSubinterval := selectedSubinterval
             numberOfEncodedBits := numberOfEncodedBits
             bottomBits := newIntervalBottomBitsInclusive
             topBits := newIntervalTopBitsInclusive
             newLo := Format.asLong newIntervalBottomBits
             newHi := Format.asLong newIntervalTopBits + 1 }

/-- The while-loop of `Arithmetic_encode` (lines 50–272), returning the cover
tokens emitted from the given state on.  The llama.cpp context is stateful:
`kv` is the token prefix already fed to `getLogits`, and each iteration
feeds `contextTokens` while `isFirstRun` is still true and `[sampledToken]`
(the last sampled token) otherwise (line 54), so this iteration's
probabilities are conditioned on
`kv ++ (if isFirstRun then contextTokens else [sampledToken])`.  The C++
clears `isFirstRun` only in the arithmetic branch (line 253), never in the
greedy branch, so a run whose message is empty feeds `contextTokens` again
on every iteration instead of the sampled tokens.  Per iteration:
arithmetic sampling while message bits remain, greedy sentence-finishing
afterwards (skipped during decompression by the loop condition), then the
unconditional ASCII-NUL check of line 269, which throws when `getAsciiNul`
finds no token and stops generation when the sampled token is that
token. -/
def encodeLoop (M : Model) (τ : ℚ) (topK P : ℕ) (isDecompression : Bool)
    (contextTokens : List Token) (m : List Bool) :
    ℕ → List Token → Bool → Token → ℕ → ℕ → ℕ → Bool → Except Err (List Token)
  | 0, _, _, _, _, _, _, _ => throw Err.outOfFuel
  | fuel + 1, kv, isFirstRun, sampledToken, i, lo, hi, isLastSentenceFinished =>
      if i < m.length || (!isDecompression && !isLastSentenceFinished) then
        if i < m.length then do
          let step ← encodeStep M τ topK P isDecompression
            (kv ++ (if isFirstRun then contextTokens else [sampledToken]))
            lo hi m i
          match getAsciiNul M with
          | none => throw Err.noAsciiNul
          | some nul =>
              if step.sampledToken = nul then
                pure [step.sampledToken]
              else do
                let rest ← encodeLoop M τ topK P isDecompression contextTokens
                  m fuel
                  (kv ++ (if isFirstRun then contextTokens else [sampledToken]))
                  false step.sampledToken (i + step.numberOfEncodedBits)
                  step.newLo step.newHi isLastSentenceFinished
                pure (step.sampledToken :: rest)
        else
          match getTopProbability M
              (kv ++ (if isFirstRun then contextTokens else [sampledToken])) with
          | none => throw Err.emptyVocabulary
          | some tok =>
              match getAsciiNul M with
              | none => throw Err.noAsciiNul
              | some nul =>
                  if tok = nul then
                    pure [tok]
                  else do
                    let rest ← encodeLoop M τ topK P isDecompression
                      contextTokens m fuel
                      (kv ++ (if isFirstRun then contextTokens
                        else [sampledToken]))
                      isFirstRun tok i lo hi (M.endsSentence tok)
                    pure (tok :: rest)
      else
        pure []

/-- `Java_..._Arithmetic_encode` at the token level: the JNI glue
(`tokenize` of the context, byte-to-bit conversion of the cipher bits,
`detokenize` of the result) sits outside; `m` is the cipher bit vector.
An empty context selects decompression mode, which pushes the
end-of-generation token as context.  The initial interval is
`[0, 2^precision)`; the KV cache starts empty, `isFirstRun` starts true,
and the initial `sampledToken` state (the C++ `-1` sentinel, dead while
`isFirstRun` holds) is modelled as token 0.  The fuel bounds the
while-loop; `.error .outOfFuel` never stands for a completed C++ run. -/
def arithmeticEncode (M : Model) (τ : ℚ) (topK P : ℕ)
    (contextTokens : List Token) (m : List Bool) (fuel : ℕ) :
    Except Err (List Token) :=
  let isDecompression := contextTokens.isEmpty
  let ctx := if isDecompression then contextTokens ++ [M.endOfGeneration]
    else contextTokens
  encodeLoop M τ topK P isDecompression ctx m fuel [] true 0 0 0 (2 ^ P) false

/-- One step of `Arithmetic_decode` (lines 315–471) for cover token number
`i`: rebuild the table, find the token's rank in the full sorted list
(`std::find_if` + `std::distance`; the C++ `rank == -1` test is dead code),
throw `DecodeMismatch` when `rank > |C|`, read the sub-interval at `rank`
(`.error .outOfBounds` models the C++ out-of-bounds vector read at
`rank == |C|`), emit bits and shift the interval exactly as the encoder.
Emission (lines 449–453): the first `numberOfSameBits` entries of the top
bits on a non-final token.  On the final cover token the C++ builds the
range `[topBits.begin(), bottomBits.end())` from iterators into two
different vectors — an invalid range, undefined behavior; the intended
behavior, modelled from the spec here, is the full `P` bits of the new
lower bound (claim C3 records this divergence). -/
def decodeStep (M : Model) (τ : ℚ) (topK P : ℕ) (isCompression : Bool)
    (hist : List Token) (lo hi : ℕ) (coverTextToken : Token) (i : ℕ)
    (isLast : Bool) : Except Err (List Bool × ℕ × ℕ) := do
  let sorted0 := scaledProbabilities M τ hist
  let table0 := buildCumTable sorted0 topK lo hi
  let (sorted, table) ←
    if isCompression then
      match getAsciiNul M with
      | none => throw Err.noAsciiNul
      | some nul => pure (setTokenAt sorted0 (table0.length - 1) nul,
          replaceLastToken nul table0)
    else
      pure (sorted0, table0)
  let rank := sorted.findIdx (fun pair => pair.1 = coverTextToken)
  if table.length < rank then
    throw (Err.decodeMismatch i)
  else
    match table.get? rank with
    | none => throw (Err.outOfBounds i)
    | some entry =>
        let newIntervalBottom := if rank = 0 then lo
          else ((table.get? (rank - 1)).getD (0, 0)).2
        let newIntervalTop := entry.2
        let newIntervalBottomBitsInclusive :=
          Format.asBitVector (newIntervalBottom : ℤ) P
        let newIntervalTopBitsInclusive :=
          Format.asBitVector ((newIntervalTop : ℤ) - 1) P
        let numberOfEncodedBits := numberOfSameBitsFromBeginning
          newIntervalBottomBitsInclusive newIntervalTopBitsInclusive
        let emitted := if isLast then newIntervalBottomBitsInclusive
          else newIntervalTopBitsInclusive.take numberOfEncodedBits
        let newIntervalBottomBits :=
          newIntervalBottomBitsInclusive.drop numberOfEncodedBits
            ++ List.replicate numberOfEncodedBits false
        let newIntervalTopBits :=
          newIntervalTopBitsInclusive.drop numberOfEncodedBits
            ++ List.replicate numberOfEncodedBits true
        pure (emitted, Format.asLong newIntervalBottomBits,
          Format.asLong newIntervalTopBits + 1)

/-- The while-loop of `Arithmetic_decode`: decode every cover token in turn,
threading the history and the interval. -/
def decodeLoop (M : Model) (τ : ℚ) (topK P : ℕ) (isCompression : Bool) :
    List Token → List Token → ℕ → ℕ → ℕ → Except Err (List Bool)
  | _, [], _, _, _ => pure []
  | hist, coverTextToken :: rest, lo, hi, i => do
      let (bits, newLo, newHi) ← decodeStep M τ topK P isCompression hist lo hi
        coverTextToken i rest.isEmpty
      let more ← decodeLoop M τ topK P isCompression (hist ++ [coverTextToken])
        rest newLo newHi (i + 1)
      pure (bits ++ more)

/-- `Java_..._Arithmetic_decode` at the token level (JNI glue outside, cover
text already tokenized).  An empty context selects compression mode. -/
def arithmeticDecode (M : Model) (τ : ℚ) (topK P : ℕ)
    (contextTokens coverTextTokens : List Token) : Except Err (List Bool) :=
  let isCompression := contextTokens.isEmpty
  let hist := if isCompression then contextTokens ++ [M.endOfGeneration]
    else contextTokens
  decodeLoop M τ topK P isCompression hist coverTextTokens 0 (2 ^ P) 0

/-! ## Concrete models for the claim witnesses and counterexamples -/

/-- Leaf tokens of a Huffman node, in tree order (proof infrastructure for
claim C7: the code table's domain is the set of leaf tokens). -/
def nodeTokens : HuffmanNode → List Token
  | .leaf t _ => [t]
  | .merged _ l r => nodeTokens l ++ nodeTokens r

/-- A three-token model (probabilities 1/2, 1/3, 1/6 at every step, token 2
detokenizes to the empty string so `getAsciiNul` returns it, every token
ends a sentence): the round-trip witness model. -/
def Mrt : Model where
  vocabSize := 3
  probs := fun _ t => if t = 0 then 1/2 else if t = 1 then 1/3 else 1/6
  probs_nonneg := by
    intro h t
    dsimp only
    split
    · norm_num
    · split <;> norm_num
  detok := fun t => if t = 2 then [] else [97]
  endOfGeneration := 0
  endsSentence := fun _ => true

/-- A two-token model whose `getAsciiNul` token (token 1, empty
detokenization) is the less likely token: a message whose first window
selects token 1 stops generation mid-message (claim C1). -/
def Mc1 : Model where
  vocabSize := 2
  probs := fun _ t => if t = 0 then 3/4 else 1/4
  probs_nonneg := by
    intro h t
    dsimp only
    split <;> norm_num
  detok := fun t => if t = 1 then [] else [97]
  endOfGeneration := 0
  endsSentence := fun _ => true

/-- A two-token model with probabilities 31/32 and 1/32: the minimum-2 keep
rule retains token 1, whose scaled weight 8/32 rounds to 0, giving a
zero-width sub-interval (claim C5). -/
def Mc5 : Model where
  vocabSize := 2
  probs := fun _ t => if t = 0 then 31/32 else 1/32
  probs_nonneg := by
    intro h t
    dsimp only
    split <;> norm_num
  detok := fun t => if t = 1 then [] else [97]
  endOfGeneration := 0
  endsSentence := fun _ => true

/-- A one-token model in which no token detokenizes to the empty string, so
`getAsciiNul` finds nothing and throws (claim C10). -/
def Mc10 : Model where
  vocabSize := 1
  probs := fun _ _ => 1
  probs_nonneg := by
    intro h t
    norm_num
  detok := fun _ => [97]
  endOfGeneration := 0
  endsSentence := fun _ => true

/-- A two-token model in which NO token detokenizes to `U+0000` (token 0
renders `"a"`, token 1 renders the empty string), yet `getAsciiNul`
succeeds, because its comparison literal decays to the empty string and
matches token 1: the counterexample model for claim C10. -/
def Mc10e : Model where
  vocabSize := 2
  probs := fun _ t => if t = 0 then 3/4 else 1/4
  probs_nonneg := by
    intro h t
    dsimp only
    split <;> norm_num
  detok := fun t => if t = 0 then [97] else []
  endOfGeneration := 0
  endsSentence := fun _ => true

/-! ## Lemmas about bit vectors and `Format` -/

theorem asLong_cons (b : Bool) (l : List Bool) :
    Format.asLong (b :: l) = b.toNat * 2 ^ l.length + Format.asLong l := by
  suffices h : ∀ (l : List Bool) (a : ℕ),
      l.foldl (fun loong b => 2 * loong + (if b then 1 else 0)) a
        = a * 2 ^ l.length + Format.asLong l by
    have h1 := h l (2 * 0 + (if b then 1 else 0))
    simp only [Format.asLong, List.foldl_cons]
    rw [h1]
    cases b <;> simp [Format.asLong]
  intro l
  induction l with
  | nil => intro a; simp [Format.asLong]
  | cons c cs ih =>
      intro a
      simp only [Format.asLong, List.foldl_cons] at *
      rw [ih, ih (2 * 0 + (if c then 1 else 0))]
      cases c <;> simp [pow_succ] <;> ring

theorem asLong_lt (l : List Bool) : Format.asLong l < 2 ^ l.length := by
  induction l with
  | nil => simp [Format.asLong]
  | cons b bs ih =>
      rw [asLong_cons]
      have hb : b.toNat ≤ 1 := Bool.toNat_le b
      have h2 : (2:ℕ) ^ (b :: bs).length = 2 ^ bs.length * 2 := by
        rw [List.length_cons, pow_succ]
      rw [h2]
      nlinarith [ih, hb, Nat.pos_pow_of_pos bs.length (show 0 < 2 by norm_num)]

theorem asLong_append (l1 l2 : List Bool) :
    Format.asLong (l1 ++ l2) = Format.asLong l1 * 2 ^ l2.length + Format.asLong l2 := by
  induction l1 with
  | nil => simp [Format.asLong]
  | cons b bs ih =>
      rw [List.cons_append, asLong_cons, ih, asLong_cons]
      simp only [List.length_append, pow_add]
      ring

theorem asLong_replicate_false (n : ℕ) :
    Format.asLong (List.replicate n false) = 0 := by
  induction n with
  | zero => rfl
  | succ m ih => rw [List.replicate_succ, asLong_cons, ih]; simp

theorem natBits_length (P v : ℕ) : (natBits P v).length = P := by
  induction P generalizing v with
  | zero => rfl
  | succ Q ih => simpa [natBits] using ih (v % 2 ^ Q)

/-- `natBits` inverts `asLong`: the canonical `P`-bit vector of the value of a
`P`-bit vector is that vector itself. -/
theorem natBits_asLong (l : List Bool) : natBits l.length (Format.asLong l) = l := by
  induction l with
  | nil => rfl
  | cons b bs ih =>
      have hlt := asLong_lt bs
      rw [asLong_cons]
      show (decide (2 ^ bs.length ≤ _) :: natBits bs.length (_ % 2 ^ bs.length)) = _
      cases b
      · have h0 : Bool.toNat false * 2 ^ bs.length + Format.asLong bs
            = Format.asLong bs := by simp
        rw [h0, Nat.mod_eq_of_lt hlt, ih, decide_eq_false (Nat.not_le.mpr hlt)]
      · have h1 : Bool.toNat true * 2 ^ bs.length + Format.asLong bs
            = 2 ^ bs.length + Format.asLong bs := by simp
        rw [h1, Nat.add_mod_left, Nat.mod_eq_of_lt hlt, ih,
          decide_eq_true (Nat.le_add_right _ _)]

theorem asLong_natBits (P v : ℕ) (h : v < 2 ^ P) :
    Format.asLong (natBits P v) = v := by
  induction P generalizing v with
  | zero => interval_cases v; rfl
  | succ P ih =>
      show Format.asLong (_ :: _) = v
      rw [asLong_cons, natBits_length,
        ih _ (Nat.mod_lt _ (Nat.pos_pow_of_pos _ (by norm_num)))]
      by_cases hb : 2 ^ P ≤ v
      · rw [decide_eq_true hb]
        rw [pow_succ] at h
        rw [Nat.mod_eq_sub_mod hb, Nat.mod_eq_of_lt (by omega)]
        simp only [Bool.toNat_true]
        omega
      · rw [decide_eq_false hb, Nat.mod_eq_of_lt (by omega)]
        simp only [Bool.toNat_false]
        omega

/-- `natBits` as an indexed map over `Nat.testBit`. -/
theorem natBits_eq_testBit_map (P v : ℕ) (h : v < 2 ^ P) :
    natBits P v = (List.range P).map (fun i => v.testBit (P - 1 - i)) := by
  induction P generalizing v with
  | zero => rfl
  | succ P ih =>
      rw [List.range_succ_eq_map, List.map_cons, List.map_map]
      show (decide (2 ^ P ≤ v) :: natBits P (v % 2 ^ P)) = _
      congr 1
      · show decide (2 ^ P ≤ v) = v.testBit (P + 1 - 1 - 0)
        have hP : P + 1 - 1 - 0 = P := by omega
        rw [hP, Nat.testBit_to_div_mod]
        rcases Nat.lt_or_ge v (2 ^ P) with hv | hv
        · simp [Nat.div_eq_of_lt hv, Nat.not_le.mpr hv]
        · have hd : v / 2 ^ P = 1 := by
            apply Nat.div_eq_of_lt_le (by simpa using hv)
            rw [pow_succ] at h
            omega
          simp [hd, hv]
      · rw [ih _ (Nat.mod_lt _ (Nat.pos_pow_of_pos _ (by norm_num)))]
        apply List.map_congr_left
        intro i hi
        rw [List.mem_range] at hi
        simp only [Function.comp_apply, Nat.succ_eq_add_one]
        have h1 : P - 1 - i < P := by omega
        have h3 : P - 1 - i = P + 1 - 1 - (i + 1) := by omega
        rw [Nat.testBit_mod_two_pow, ← h3]
        simp [h1]

/-- The 8 MSB-first bits of a byte value recover the byte's bit list. -/
theorem byteBits_eq_natBits (b : ℕ) (h : b < 256) :
    (List.range 8).map (Format.byteBit b) = natBits 8 b := by
  rw [natBits_eq_testBit_map 8 b h]
  rfl

theorem asByteArray_cons (bits : List Bool) (h : 8 ≤ bits.length) :
    Format.asByteArray bits
      = Format.asLong (bits.take 8) :: Format.asByteArray (bits.drop 8) := by
  unfold Format.asByteArray
  have hlen : bits.length / 8 = (bits.drop 8).length / 8 + 1 := by
    rw [List.length_drop]; omega
  rw [hlen, List.range_succ_eq_map, List.map_cons, List.map_map]
  refine congrArg₂ _ (by norm_num) ?_
  apply List.map_congr_left
  intro i _
  simp only [Function.comp_apply, Nat.succ_eq_add_one]
  rw [List.drop_drop]
  ring_nf

theorem asBitVectorWithoutPadding_eq (bytes : List ℕ) :
    Format.asBitVectorWithoutPadding bytes
      = (Format.bytesAsBitVector bytes).drop
          (8 + Format.asLong ((Format.bytesAsBitVector bytes).take 8)) := rfl

theorem bytesAsBitVector_cons (b : ℕ) (bs : List ℕ) :
    Format.bytesAsBitVector (b :: bs)
      = (List.range 8).map (Format.byteBit b) ++ Format.bytesAsBitVector bs := by
  simp [Format.bytesAsBitVector]

/-- Unpacking the bytes packed by `Format::asByteArray` yields the input
truncated to a whole number of bytes. -/
theorem bytesAsBitVector_asByteArray (bits : List Bool) :
    Format.bytesAsBitVector (Format.asByteArray bits)
      = bits.take (8 * (bits.length / 8)) := by
  suffices h : ∀ n (bits : List Bool), bits.length / 8 = n →
      Format.bytesAsBitVector (Format.asByteArray bits) = bits.take (8 * n) by
    exact h _ bits rfl
  intro n
  induction n with
  | zero =>
      intro bits h0
      simp [Format.asByteArray, h0, Format.bytesAsBitVector]
  | succ n ihn =>
      intro bits hn
      have h8 : 8 ≤ bits.length := by
        by_contra hlt
        push_neg at hlt
        rw [Nat.div_eq_of_lt hlt] at hn
        omega
      rw [asByteArray_cons bits h8, bytesAsBitVector_cons]
      have hdrop : (bits.drop 8).length / 8 = n := by
        rw [List.length_drop]
        omega
      rw [ihn _ hdrop]
      have htake : (bits.take 8).length = 8 := by
        rw [List.length_take]
        omega
      have hb : Format.asLong (bits.take 8) < 256 := by
        have := asLong_lt (bits.take 8)
        rwa [htake] at this
      have hbyte : (List.range 8).map (Format.byteBit (Format.asLong (bits.take 8)))
          = bits.take 8 := by
        rw [byteBits_eq_natBits _ hb]
        have := natBits_asLong (bits.take 8)
        rwa [htake] at this
      rw [hbyte]
      have hsum : 8 * (n + 1) = 8 + 8 * n := by ring
      rw [hsum, List.take_add]

/-- C2. `bytes_to_bits_stripped ∘ bits_to_bytes_padded = id`, and the empty
bit vector maps to the single byte `0`. -/
theorem padded_byte_array_roundtrip :
    (∀ x : List Bool,
      Format.asBitVectorWithoutPadding (Format.asByteArrayWithPadding x) = x)
    ∧ Format.asByteArrayWithPadding [] = [0] := by
  constructor
  · intro x
    have hple : (8 - x.length % 8) % 8 ≤ 7 := by omega
    have hpack : Format.asByteArrayWithPadding x
        = ((8 - x.length % 8) % 8) ::
            Format.asByteArray
              (List.replicate ((8 - x.length % 8) % 8) false ++ x) := rfl
    set p := (8 - x.length % 8) % 8 with hp
    set padded := List.replicate p false ++ x with hpadded
    have hlen : padded.length = p + x.length := by simp [hpadded]
    have hmod : padded.length % 8 = 0 := by
      rw [hlen, hp]
      omega
    rw [hpack, asBitVectorWithoutPadding_eq, bytesAsBitVector_cons]
    have h1 : Format.bytesAsBitVector (Format.asByteArray padded) = padded := by
      rw [bytesAsBitVector_asByteArray,
        Nat.mul_div_cancel' (Nat.dvd_of_mod_eq_zero hmod), List.take_length]
    rw [h1]
    have hbyte : (List.range 8).map (Format.byteBit p) = natBits 8 p :=
      byteBits_eq_natBits p (by omega)
    have hALen : ((List.range 8).map (Format.byteBit p)).length = 8 := by simp
    have htake8 : (((List.range 8).map (Format.byteBit p)) ++ padded).take 8
        = (List.range 8).map (Format.byteBit p) :=
      List.take_left' hALen
    have hval : Format.asLong ((((List.range 8).map (Format.byteBit p))
        ++ padded).take 8) = p := by
      rw [htake8, hbyte, asLong_natBits 8 p (by omega)]
    rw [hval]
    have hdrops : ((List.range 8).map (Format.byteBit p) ++ padded).drop (8 + p)
        = padded.drop p := by
      rw [← List.drop_drop, List.drop_left' hALen]
    rw [hdrops, hpadded,
      List.drop_left' (by simp : (List.replicate p false).length = p)]
  · rfl

/-- C8 (amended). `Format::asByteArray` inverts `Format::asBitVector` on
byte-aligned bit vectors, and silently truncates the trailing `len % 8` bits
otherwise: unpacking the packed bytes always returns the first
`8 * (len / 8)` bits, and no failure path exists. -/
theorem bits_to_bytes_truncates (bits : List Bool) :
    Format.bytesAsBitVector (Format.asByteArray bits)
      = bits.take (8 * (bits.length / 8)) :=
  bytesAsBitVector_asByteArray bits

/-- C8 (counterexample). A 1-bit input has length not a multiple of 8; the
claim says `bits_to_bytes` must fail with `MalformedBitstream`, but
`Format::asByteArray` has no failure path: it returns the empty byte array,
silently dropping the bit. -/
theorem bits_to_bytes_drops_trailing_bit : Format.asByteArray [true] = [] := rfl

/-! ## Fixed-width bit-vector arithmetic -/

theorem asLong_replicate_true (n : ℕ) :
    Format.asLong (List.replicate n true) = 2 ^ n - 1 := by
  induction n with
  | zero => rfl
  | succ m ih =>
      rw [List.replicate_succ, asLong_cons, ih]
      have : 1 ≤ 2 ^ m := Nat.one_le_two_pow
      simp only [Bool.toNat_true, List.length_replicate, one_mul, pow_succ]
      omega

theorem natBits_drop (P n v : ℕ) (hn : n ≤ P) (hv : v < 2 ^ P) :
    (natBits P v).drop n = natBits (P - n) (v % 2 ^ (P - n)) := by
  induction n generalizing P v with
  | zero =>
      rw [List.drop_zero, Nat.sub_zero, Nat.mod_eq_of_lt hv]
  | succ k ih =>
      match P, hn with
      | Q + 1, hn =>
          have h1 : natBits (Q + 1) v = decide (2 ^ Q ≤ v) :: natBits Q (v % 2 ^ Q) := rfl
          rw [h1, List.drop_succ_cons,
            ih Q _ (by omega) (Nat.mod_lt _ (Nat.pos_pow_of_pos _ (by norm_num)))]
          have h2 : Q + 1 - (k + 1) = Q - k := by omega
          rw [h2, Nat.mod_mod_of_dvd v (pow_dvd_pow 2 (by omega))]

theorem natBits_take (P n v : ℕ) (hn : n ≤ P) :
    (natBits P v).take n = natBits n (v / 2 ^ (P - n)) := by
  induction n generalizing P v with
  | zero => simp [natBits]
  | succ k ih =>
      match P, hn with
      | Q + 1, hn =>
          have h1 : natBits (Q + 1) v = decide (2 ^ Q ≤ v) :: natBits Q (v % 2 ^ Q) := rfl
          rw [h1, List.take_succ_cons, ih Q _ (by omega)]
          have hd : Q + 1 - (k + 1) = Q - k := by omega
          rw [hd]
          show _ = (decide (2 ^ k ≤ v / 2 ^ (Q - k))
            :: natBits k (v / 2 ^ (Q - k) % 2 ^ k))
          congr 1
          · rw [decide_eq_decide,
              Nat.le_div_iff_mul_le (Nat.pos_pow_of_pos _ (by norm_num)),
              ← pow_add]
            have he : k + (Q - k) = Q := by omega
            rw [he]
          · congr 1
            have h3 : (2:ℕ) ^ Q = 2 ^ (Q - k) * 2 ^ k := by
              rw [← pow_add]
              congr 1
              omega
            rw [h3, Nat.mod_mul_right_div_self]

theorem natBits_inj (P u w : ℕ) (hu : u < 2 ^ P) (hw : w < 2 ^ P)
    (h : natBits P u = natBits P w) : u = w := by
  have h2 := congrArg Format.asLong h
  rwa [asLong_natBits P u hu, asLong_natBits P w hw] at h2

theorem sameBits_le_length (l1 l2 : List Bool) :
    numberOfSameBitsFromBeginning l1 l2 ≤ l1.length := by
  induction l1 generalizing l2 with
  | nil => cases l2 <;> simp [numberOfSameBitsFromBeginning]
  | cons b bs ih =>
      cases l2 with
      | nil => simp [numberOfSameBitsFromBeginning]
      | cons c cs =>
          show (if b = c then numberOfSameBitsFromBeginning bs cs + 1 else 0) ≤ _
          split
          · have := ih cs
            simp only [List.length_cons]
            omega
          · simp

theorem sameBits_take_eq (l1 l2 : List Bool) :
    l1.take (numberOfSameBitsFromBeginning l1 l2)
      = l2.take (numberOfSameBitsFromBeginning l1 l2) := by
  induction l1 generalizing l2 with
  | nil => cases l2 <;> simp [numberOfSameBitsFromBeginning]
  | cons b bs ih =>
      cases l2 with
      | nil => simp [numberOfSameBitsFromBeginning]
      | cons c cs =>
          show (b :: bs).take (if b = c then _ + 1 else 0)
            = (c :: cs).take (if b = c then _ + 1 else 0)
          by_cases h : b = c
          · subst h
            have hif : (if b = b then numberOfSameBitsFromBeginning bs cs + 1 else 0)
                = numberOfSameBitsFromBeginning bs cs + 1 := if_pos rfl
            rw [hif, List.take_succ_cons, List.take_succ_cons, ih cs]
          · simp [h]

theorem div_pinch (a b x d : ℕ) (h1 : a ≤ x) (h2 : x ≤ b) (h : a / d = b / d) :
    x / d = a / d :=
  le_antisymm (h ▸ Nat.div_le_div_right h2) (Nat.div_le_div_right h1)

theorem mod_pinch (a b x d : ℕ) (h1 : a ≤ x) (h2 : x ≤ b) (h : a / d = b / d) :
    a % d ≤ x % d ∧ x % d ≤ b % d := by
  have hx := div_pinch a b x d h1 h2 h
  have e1 := Nat.div_add_mod a d
  have e2 := Nat.div_add_mod x d
  have e3 := Nat.div_add_mod b d
  rw [hx] at e2
  rw [← h] at e3
  generalize d * (a / d) = T at e1 e2 e3
  generalize a % d = A at e1 ⊢
  generalize x % d = X at e2 ⊢
  generalize b % d = B at e3 ⊢
  omega

theorem sameBits_natBits_le (P a b : ℕ) :
    numberOfSameBitsFromBeginning (natBits P a) (natBits P b) ≤ P := by
  have h := sameBits_le_length (natBits P a) (natBits P b)
  rwa [natBits_length] at h

theorem div_lt_pow (P n a : ℕ) (hn : n ≤ P) (ha : a < 2 ^ P) :
    a / 2 ^ (P - n) < 2 ^ n := by
  rw [Nat.div_lt_iff_lt_mul (Nat.pos_pow_of_pos _ (by norm_num)), ← pow_add]
  have he : n + (P - n) = P := by omega
  rwa [he]

theorem sameBits_natBits_div (P a b : ℕ) (ha : a < 2 ^ P) (hb : b < 2 ^ P) :
    a / 2 ^ (P - numberOfSameBitsFromBeginning (natBits P a) (natBits P b))
      = b / 2 ^ (P - numberOfSameBitsFromBeginning (natBits P a) (natBits P b)) := by
  have hnP := sameBits_natBits_le P a b
  have ht := sameBits_take_eq (natBits P a) (natBits P b)
  rw [natBits_take P _ a hnP, natBits_take P _ b hnP] at ht
  exact natBits_inj _ _ _ (div_lt_pow P _ a hnP ha) (div_lt_pow P _ b hnP hb) ht

theorem natBits_take_pinch (P a b x : ℕ) (hb : b < 2 ^ P) (hx1 : a ≤ x)
    (hx2 : x ≤ b) :
    (natBits P x).take (numberOfSameBitsFromBeginning (natBits P a) (natBits P b))
      = (natBits P b).take
          (numberOfSameBitsFromBeginning (natBits P a) (natBits P b)) := by
  have ha : a < 2 ^ P := lt_of_le_of_lt (le_trans hx1 hx2) hb
  have hxP : x < 2 ^ P := lt_of_le_of_lt hx2 hb
  have hnP := sameBits_natBits_le P a b
  rw [natBits_take P _ x hnP, natBits_take P _ b hnP]
  congr 1
  have hdiv := sameBits_natBits_div P a b ha hb
  calc x / 2 ^ (P - numberOfSameBitsFromBeginning (natBits P a) (natBits P b))
      = a / 2 ^ (P - numberOfSameBitsFromBeginning (natBits P a) (natBits P b)) :=
        div_pinch a b x _ hx1 hx2 hdiv
    _ = b / 2 ^ (P - numberOfSameBitsFromBeginning (natBits P a) (natBits P b)) :=
        hdiv

theorem asLong_drop_replicate_false (P n v : ℕ) (hn : n ≤ P) (hv : v < 2 ^ P) :
    Format.asLong ((natBits P v).drop n ++ List.replicate n false)
      = v % 2 ^ (P - n) * 2 ^ n := by
  rw [asLong_append, natBits_drop P n v hn hv, asLong_replicate_false,
    List.length_replicate,
    asLong_natBits _ _ (Nat.mod_lt _ (Nat.pos_pow_of_pos _ (by norm_num)))]
  omega

theorem asLong_drop_replicate_true (P n v : ℕ) (hn : n ≤ P) (hv : v < 2 ^ P) :
    Format.asLong ((natBits P v).drop n ++ List.replicate n true) + 1
      = v % 2 ^ (P - n) * 2 ^ n + 2 ^ n := by
  rw [asLong_append, natBits_drop P n v hn hv, asLong_replicate_true,
    List.length_replicate,
    asLong_natBits _ _ (Nat.mod_lt _ (Nat.pos_pow_of_pos _ (by norm_num)))]
  have h1 : (1:ℕ) ≤ 2 ^ n := Nat.one_le_two_pow
  omega

theorem intBit_natCast (a k : ℕ) : Format.intBit (a : ℤ) k = a.testBit k := by
  unfold Format.intBit
  rw [Nat.testBit_to_div_mod, decide_eq_decide]
  have h1 : ((2:ℤ) ^ k) = ((2 ^ k : ℕ) : ℤ) := by push_cast; ring
  rw [h1]
  have h2 : (a : ℤ).ediv ((2 ^ k : ℕ) : ℤ) = ((a / 2 ^ k : ℕ) : ℤ) := rfl
  rw [h2]
  have h3 : ((a / 2 ^ k : ℕ) : ℤ).emod 2 = ((a / 2 ^ k % 2 : ℕ) : ℤ) := rfl
  rw [h3]
  norm_cast

theorem asBitVector_natCast (a P : ℕ) (h : a < 2 ^ P) :
    Format.asBitVector (a : ℤ) P = natBits P a := by
  unfold Format.asBitVector
  rw [natBits_eq_testBit_map P a h]
  apply List.map_congr_left
  intro i _
  exact intBit_natCast a _

/-! ## The message window -/

theorem msgWindow_length (m : List Bool) (i w : ℕ) :
    (msgWindow m i w).length = w := by
  simp [msgWindow]

theorem msgWindow_val_lt (m : List Bool) (i w : ℕ) :
    Format.asLong (msgWindow m i w) < 2 ^ w := by
  have h := asLong_lt (msgWindow m i w)
  rwa [msgWindow_length] at h

theorem msgWindow_natBits (m : List Bool) (i w : ℕ) :
    natBits w (Format.asLong (msgWindow m i w)) = msgWindow m i w := by
  have h := natBits_asLong (msgWindow m i w)
  rwa [msgWindow_length] at h

theorem msgWindow_append (m : List Bool) (i n d : ℕ) :
    msgWindow m i (n + d) = msgWindow m i n ++ msgWindow m (i + n) d := by
  unfold msgWindow
  rw [List.range_add, List.map_append, List.map_map]
  congr 1
  apply List.map_congr_left
  intro j _
  simp only [Function.comp_apply]
  congr 1
  omega

theorem msgWindow_val_split (m : List Bool) (i n d : ℕ) :
    Format.asLong (msgWindow m i (n + d))
      = Format.asLong (msgWindow m i n) * 2 ^ d
        + Format.asLong (msgWindow m (i + n) d) := by
  rw [msgWindow_append, asLong_append, msgWindow_length]

theorem msgWindow_all_in (m : List Bool) (i n : ℕ) (h : i + n ≤ m.length) :
    msgWindow m i n = (m.drop i).take n := by
  apply List.ext_getElem
  · rw [msgWindow_length, List.length_take, List.length_drop]
    omega
  · intro j h1 h2
    rw [msgWindow_length] at h1
    unfold msgWindow
    rw [List.getElem_map, List.getElem_range, List.getElem_take, List.getElem_drop,
      List.getD_eq_getElem m false (by omega)]

theorem msgWindow_out (m : List Bool) (i n : ℕ) (h : m.length ≤ i) :
    msgWindow m i n = List.replicate n false := by
  apply List.ext_getElem
  · rw [msgWindow_length, List.length_replicate]
  · intro j h1 h2
    unfold msgWindow
    rw [List.getElem_map, List.getElem_range, List.getElem_replicate,
      List.getD_eq_default m false (by omega)]

/-- The message window assembled from the real message slice and zero
padding. -/
theorem msgWindow_eq_take_append (m : List Bool) (i n : ℕ) (h : i ≤ m.length) :
    msgWindow m i n
      = (m.drop i).take n ++ List.replicate (n - (m.length - i)) false := by
  rcases le_or_lt (i + n) m.length with hle | hgt
  · rw [msgWindow_all_in m i n hle]
    have h0 : n - (m.length - i) = 0 := by omega
    rw [h0, List.replicate_zero, List.append_nil]
  · have hsplit : msgWindow m i n = msgWindow m i (m.length - i)
        ++ msgWindow m (i + (m.length - i)) (n - (m.length - i)) := by
      rw [← msgWindow_append]
      congr 1
      omega
    rw [hsplit, msgWindow_all_in m i (m.length - i) (by omega),
      msgWindow_out m (i + (m.length - i)) _ (by omega)]
    congr 1
    rw [List.take_of_length_le (by simp)]
    exact (List.take_of_length_le (by simp only [List.length_drop]; omega)).symm

/-- `cipherBitSubvector` agrees with the message window on reachable
cursors. -/
theorem cipherBitSubvector_eq_msgWindow (m : List Bool) (i P : ℕ)
    (h : i ≤ m.length) :
    cipherBitSubvector m i P = msgWindow m i P := by
  unfold cipherBitSubvector
  rcases lt_trichotomy (i + P) m.length with h1 | h1 | h1
  · simp only [if_pos h1, if_neg (show ¬ m.length < i + P by omega)]
    rw [msgWindow_all_in m i P (by omega)]
  · simp only [if_neg (show ¬ i + P < m.length by omega),
      if_neg (show ¬ m.length < i + P by omega)]
    rw [msgWindow_all_in m i P (by omega),
      List.take_of_length_le (by simp only [List.length_drop]; omega)]
  · simp only [if_neg (show ¬ i + P < m.length by omega),
      if_pos (show m.length < i + P by omega)]
    rw [msgWindow_eq_take_append m i P h]
    congr 1
    · exact (List.take_of_length_le (by simp only [List.length_drop]; omega)).symm
    · congr 1
      omega

theorem msgWindow_take (m : List Bool) (i P n : ℕ) (hn : n ≤ P) :
    (msgWindow m i P).take n = msgWindow m i n := by
  have hP : P = n + (P - n) := by omega
  rw [hP, msgWindow_append, List.take_left' (msgWindow_length m i n)]

/-! ## The descending sort -/

theorem insertDesc_perm (p : Token × ℚ) (l : List (Token × ℚ)) :
    List.Perm (insertDesc p l) (p :: l) := by
  induction l with
  | nil => exact List.Perm.refl _
  | cons q qs ih =>
      unfold insertDesc
      split
      · exact List.Perm.refl _
      · exact List.Perm.trans (List.Perm.cons q ih) (List.Perm.swap p q qs)

theorem sortDesc_perm (l : List (Token × ℚ)) : List.Perm (sortDesc l) l := by
  induction l with
  | nil => exact List.Perm.refl _
  | cons p ps ih =>
      exact List.Perm.trans (insertDesc_perm p (sortDesc ps)) (List.Perm.cons p ih)

theorem insertDesc_sorted (p : Token × ℚ) (l : List (Token × ℚ))
    (h : l.Pairwise (fun a b => b.2 ≤ a.2)) :
    (insertDesc p l).Pairwise (fun a b => b.2 ≤ a.2) := by
  induction l with
  | nil => simp [insertDesc]
  | cons q qs ih =>
      rcases List.pairwise_cons.mp h with ⟨hq, hqs⟩
      unfold insertDesc
      split
      case isTrue hle =>
        apply List.pairwise_cons.mpr
        refine ⟨?_, h⟩
        intro b hb
        rcases List.mem_cons.mp hb with rfl | hb2
        · exact hle
        · exact le_trans (hq b hb2) hle
      case isFalse hgt =>
        apply List.pairwise_cons.mpr
        refine ⟨?_, ih hqs⟩
        intro b hb
        rcases List.mem_cons.mp ((insertDesc_perm p qs).mem_iff.mp hb) with rfl | hb2
        · exact le_of_lt (lt_of_not_le hgt)
        · exact hq b hb2

theorem sortDesc_sorted (l : List (Token × ℚ)) :
    (sortDesc l).Pairwise (fun a b => b.2 ≤ a.2) := by
  induction l with
  | nil => simp [sortDesc]
  | cons p ps ih => exact insertDesc_sorted p (sortDesc ps) ih

theorem insertDesc_map_scale (τ : ℚ) (hτ : 0 < τ) (p : Token × ℚ)
    (l : List (Token × ℚ)) :
    insertDesc (p.1, p.2 / τ) (l.map (fun q => (q.1, q.2 / τ)))
      = (insertDesc p l).map (fun q => (q.1, q.2 / τ)) := by
  induction l with
  | nil => rfl
  | cons q qs ih =>
      simp only [List.map_cons]
      rw [show insertDesc (p.1, p.2 / τ)
            ((q.1, q.2 / τ) :: qs.map (fun r => (r.1, r.2 / τ)))
          = if q.2 / τ ≤ p.2 / τ then
              (p.1, p.2 / τ) :: (q.1, q.2 / τ) :: qs.map (fun r => (r.1, r.2 / τ))
            else (q.1, q.2 / τ)
              :: insertDesc (p.1, p.2 / τ) (qs.map (fun r => (r.1, r.2 / τ)))
          from rfl]
      rw [show insertDesc p (q :: qs)
          = if q.2 ≤ p.2 then p :: q :: qs else q :: insertDesc p qs from rfl]
      by_cases hc : q.2 ≤ p.2
      · rw [if_pos ((div_le_div_iff_of_pos_right hτ).mpr hc), if_pos hc]
        rfl
      · rw [if_neg (fun hdc => hc ((div_le_div_iff_of_pos_right hτ).mp hdc)),
          if_neg hc, List.map_cons, ih]

theorem sortDesc_map_scale (τ : ℚ) (hτ : 0 < τ) (l : List (Token × ℚ)) :
    sortDesc (l.map (fun q => (q.1, q.2 / τ)))
      = (sortDesc l).map (fun q => (q.1, q.2 / τ)) := by
  induction l with
  | nil => rfl
  | cons p ps ih =>
      show insertDesc (p.1, p.2 / τ) (sortDesc (ps.map _)) = _
      rw [ih]
      exact insertDesc_map_scale τ hτ p (sortDesc ps)

/-- In a list with duplicate-free keys, searching for the key of entry `j`
finds exactly position `j`. -/
theorem findIdx_fst_nodup {β : Type} (l : List (Token × β)) (j : ℕ)
    (hj : j < l.length) (hnd : (l.map Prod.fst).Nodup) :
    l.findIdx (fun p => p.1 = (l.get ⟨j, hj⟩).1) = j := by
  induction l generalizing j with
  | nil => simp at hj
  | cons a l ih =>
      rcases List.pairwise_cons.mp hnd with ⟨ha, hl⟩
      cases j with
      | zero =>
          rw [List.findIdx_cons]
          simp
      | succ k =>
          rw [List.findIdx_cons]
          have hk : k < l.length := by
            simp only [List.length_cons] at hj
            omega
          have hmem : ((a :: l).get ⟨k + 1, hj⟩).1 ∈ l.map Prod.fst := by
            show (l.get ⟨k, hk⟩).1 ∈ l.map Prod.fst
            exact List.mem_map_of_mem Prod.fst (l.get_mem k hk)
          have hd : (decide (a.1 = ((a :: l).get ⟨k + 1, hj⟩).1)) = false :=
            decide_eq_false (fun hEq => (ha _ hmem) hEq)
          simp only [hd, cond_false]
          have hrec := ih k hk hl
          rw [show ((a :: l).get ⟨k + 1, hj⟩) = l.get ⟨k, hk⟩ from rfl, hrec]

theorem tokenProbs_fst (M : Model) (hist : List Token) :
    (tokenProbs M hist).map Prod.fst = List.range M.vocabSize := by
  unfold tokenProbs
  rw [List.map_map]
  exact List.map_id _

theorem scaledProbabilities_eq_map (M : Model) (τ : ℚ) (hist : List Token) :
    scaledProbabilities M τ hist
      = sortDesc ((tokenProbs M hist).map (fun q => (q.1, q.2 / τ))) := by
  unfold scaledProbabilities tokenProbs
  rw [List.map_map]
  rfl

theorem scaledProbabilities_fst_nodup (M : Model) (τ : ℚ) (hist : List Token) :
    ((scaledProbabilities M τ hist).map Prod.fst).Nodup := by
  have hperm := (sortDesc_perm ((List.range M.vocabSize).map
    (fun t => (t, M.probs hist t / τ)))).map Prod.fst
  apply hperm.nodup_iff.mpr
  rw [List.map_map]
  rw [show (Prod.fst ∘ fun t : ℕ => (t, M.probs hist t / τ)) = id from rfl,
    List.map_id]
  exact List.nodup_range M.vocabSize

/-- The scaled sorted list is the unscaled sorted list with every weight
divided by the (positive) temperature; in particular tokens sit at the same
positions. -/
theorem scaledProbabilities_map (M : Model) (τ : ℚ) (hτ : 0 < τ)
    (hist : List Token) :
    scaledProbabilities M τ hist
      = (sortDesc (tokenProbs M hist)).map (fun q => (q.1, q.2 / τ)) := by
  rw [scaledProbabilities_eq_map, sortDesc_map_scale τ hτ]

theorem scaledProbabilities_nonneg (M : Model) (τ : ℚ) (hτ : 0 < τ)
    (hist : List Token) :
    ∀ p ∈ scaledProbabilities M τ hist, 0 ≤ p.2 := by
  intro p hp
  have hmem := (sortDesc_perm _).mem_iff.mp hp
  rcases List.mem_map.mp hmem with ⟨t, _, rfl⟩
  exact div_nonneg (M.probs_nonneg hist t) (le_of_lt hτ)

theorem scaledProbabilities_length (M : Model) (τ : ℚ) (hist : List Token) :
    (scaledProbabilities M τ hist).length = M.vocabSize := by
  unfold scaledProbabilities
  rw [(sortDesc_perm _).length_eq, List.length_map, List.length_range]

theorem scaledProbabilities_ne_nil (M : Model) (τ : ℚ) (hist : List Token)
    (hV : 1 ≤ M.vocabSize) : scaledProbabilities M τ hist ≠ [] := by
  intro h
  have := scaledProbabilities_length M τ hist
  rw [h] at this
  simp at this
  omega

/-! ## The cumulative table -/

theorem roundQ_le (q : ℚ) (N : ℕ) (h : q ≤ N) : roundQ q ≤ N := by
  unfold roundQ
  have h1 : ⌊q + 1 / 2⌋ ≤ ⌊(N : ℚ) + 1 / 2⌋ :=
    Int.floor_le_floor (by linarith)
  have h2 : ⌊(N : ℚ) + 1 / 2⌋ = N := by
    rw [add_comm, Int.floor_add_nat]
    norm_num
  omega

theorem roundQ_mono (q1 q2 : ℚ) (h : q1 ≤ q2) : roundQ q1 ≤ roundQ q2 := by
  unfold roundQ
  have := Int.floor_le_floor (α := ℚ) (show q1 + 1 / 2 ≤ q2 + 1 / 2 by linarith)
  omega

theorem cumulate_map_fst (acc : ℕ) (l : List (Token × ℕ)) :
    (cumulate acc l).map Prod.fst = l.map Prod.fst := by
  induction l generalizing acc with
  | nil => rfl
  | cons e rest ih =>
      rcases e with ⟨t, r⟩
      show (t, acc + r).1 :: (cumulate (acc + r) rest).map Prod.fst = _
      rw [ih]
      rfl

theorem cumulate_length (acc : ℕ) (l : List (Token × ℕ)) :
    (cumulate acc l).length = l.length := by
  induction l generalizing acc with
  | nil => rfl
  | cons e rest ih =>
      rcases e with ⟨t, r⟩
      show ((t, acc + r) :: cumulate (acc + r) rest).length = _
      rw [List.length_cons, ih, List.length_cons]

theorem cumulate_le (acc : ℕ) (l : List (Token × ℕ)) :
    ∀ e ∈ cumulate acc l, acc ≤ e.2 := by
  induction l generalizing acc with
  | nil => intro e he; simp [cumulate] at he
  | cons p rest ih =>
      rcases p with ⟨t, r⟩
      intro e he
      rcases List.mem_cons.mp he with rfl | he2
      · show acc ≤ acc + r
        omega
      · have := ih (acc + r) e he2
        omega

theorem cumulate_pairwise (acc : ℕ) (l : List (Token × ℕ)) :
    (cumulate acc l).Pairwise (fun a b => a.2 ≤ b.2) := by
  induction l generalizing acc with
  | nil => simp [cumulate]
  | cons p rest ih =>
      rcases p with ⟨t, r⟩
      show ((t, acc + r) :: cumulate (acc + r) rest).Pairwise _
      apply List.pairwise_cons.mpr
      exact ⟨fun e he => cumulate_le (acc + r) rest e he, ih (acc + r)⟩

theorem cumulate_head (acc : ℕ) (t : Token) (r : ℕ) (l : List (Token × ℕ)) :
    cumulate acc ((t, r) :: l) = (t, acc + r) :: cumulate (acc + r) l := rfl

/-- The overfill `resize` equals a `takeWhile` on a non-decreasing list. -/
theorem take_sub_countP_eq_takeWhile (l : List (Token × ℕ)) (R : ℕ)
    (hmono : l.Pairwise (fun a b => a.2 ≤ b.2)) :
    l.take (l.length - l.countP (fun pair => R < pair.2))
      = l.takeWhile (fun pair => pair.2 ≤ R) := by
  induction l with
  | nil => rfl
  | cons e rest ih =>
      rcases List.pairwise_cons.mp hmono with ⟨he, hrest⟩
      by_cases hc : e.2 ≤ R
      · rw [List.countP_cons_of_neg _ _ (by simpa using (by omega : ¬ R < e.2))]
        have hcnt := List.countP_le_length
          (p := fun pair : Token × ℕ => decide (R < pair.2)) (l := rest)
        rw [List.length_cons]
        have heq : rest.length + 1 - rest.countP (fun pair => decide (R < pair.2))
            = (rest.length - rest.countP (fun pair => decide (R < pair.2))) + 1 := by
          omega
        rw [heq, List.take_succ_cons,
          List.takeWhile_cons_of_pos (by simpa using hc), ih hrest]
      · have hcnt : (e :: rest).countP (fun pair => decide (R < pair.2))
            = (e :: rest).length := by
          rw [List.countP_eq_length]
          intro x hx
          rcases List.mem_cons.mp hx with rfl | hx2
          · simpa using (by omega : R < x.2)
          · have := he x hx2
            simpa using (by omega : R < x.2)
        rw [hcnt, Nat.sub_self, List.take_zero,
          List.takeWhile_cons_of_neg (by simpa using hc)]

/-- Master facts about `fixAndShift` applied to a non-empty non-decreasing
cumulated list whose head is at most the range. -/
theorem fixAndShift_spec (R lo : ℕ) (e : Token × ℕ) (rest : List (Token × ℕ))
    (hR : 1 ≤ R)
    (hmono : (e :: rest).Pairwise (fun a b => a.2 ≤ b.2))
    (hh : e.2 ≤ R) :
    fixAndShift R lo (e :: rest) ≠ []
    ∧ (fixAndShift R lo (e :: rest)).getLast?.map Prod.snd = some (R + lo)
    ∧ ((1 ≤ e.2 ∨ ∀ y ∈ e :: rest, y.2 = 0) →
        ∀ x ∈ fixAndShift R lo (e :: rest), lo + 1 ≤ x.2)
    ∧ (fixAndShift R lo (e :: rest)).Pairwise (fun a b => a.2 ≤ b.2)
    ∧ (∀ j, j < (fixAndShift R lo (e :: rest)).length →
        (fixAndShift R lo (e :: rest))[j]?.map Prod.fst
          = (e :: rest)[j]?.map Prod.fst) := by
  have htw := take_sub_countP_eq_takeWhile (e :: rest) R hmono
  obtain ⟨lst, hlst⟩ : ∃ lst,
      (e :: rest.takeWhile (fun pair => pair.2 ≤ R)).getLast? = some lst :=
    ⟨_, List.getLast?_eq_getLast _ (by simp)⟩
  have hfix : fixAndShift R lo (e :: rest)
      = ((e :: rest.takeWhile (fun pair => pair.2 ≤ R)).map
            (fun item => (item.1, item.2 + (R - lst.2)))).map
          (fun item => (item.1, item.2 + lo)) := by
    unfold fixAndShift
    rw [htw, List.takeWhile_cons_of_pos (by simpa using hh)]
    dsimp only
    rw [hlst]
  have hlstmem : lst ∈ e :: rest.takeWhile (fun pair => pair.2 ≤ R) :=
    List.mem_of_getLast?_eq_some hlst
  have hsubl : (e :: rest.takeWhile (fun pair => pair.2 ≤ R)).Sublist (e :: rest) :=
    List.Sublist.cons₂ e (List.takeWhile_sublist _)
  have hmono2 : (e :: rest.takeWhile (fun pair => pair.2 ≤ R)).Pairwise
      (fun a b => a.2 ≤ b.2) := List.Pairwise.sublist hsubl hmono
  have hlstle : lst.2 ≤ R := by
    rcases List.mem_cons.mp hlstmem with rfl | hmem
    · exact hh
    · simpa using List.mem_takeWhile_imp hmem
  obtain ⟨t, ht⟩ := ( List.takeWhile_prefix
    (p := fun pair : Token × ℕ => decide (pair.2 ≤ R)) (l := rest))
  rw [hfix]
  refine ⟨by simp, ?_, ?_, ?_, ?_⟩
  · -- the last cumulated value is exactly hi = R + lo
    rw [List.getLast?_map, List.getLast?_map, hlst]
    show some ((lst.2 + (R - lst.2)) + lo) = some (R + lo)
    congr 2
    omega
  · -- every entry clears lo, strictly
    intro hcase x hx
    rcases List.mem_map.mp hx with ⟨y, hy, rfl⟩
    rcases List.mem_map.mp hy with ⟨z, hz, rfl⟩
    show lo + 1 ≤ z.2 + (R - lst.2) + lo
    rcases hcase with h1 | h0
    · have hze : e.2 ≤ z.2 := by
        rcases List.mem_cons.mp hz with rfl | hz2
        · omega
        · exact (List.pairwise_cons.mp hmono2).1 z hz2
      omega
    · have hlst0 : lst.2 = 0 := h0 lst (hsubl.subset hlstmem)
      have hR0 : R - lst.2 = R := by omega
      omega
  · -- entries non-decreasing
    have hp1 : ((e :: rest.takeWhile (fun pair => pair.2 ≤ R)).map
        (fun item => (item.1, item.2 + (R - lst.2)))).Pairwise
        (fun a b : Token × ℕ => a.2 ≤ b.2) := by
      refine List.Pairwise.map _ (fun a b hab => ?_) hmono2
      show a.2 + (R - lst.2) ≤ b.2 + (R - lst.2)
      omega
    refine List.Pairwise.map _ (fun a b hab => ?_) hp1
    show a.2 + lo ≤ b.2 + lo
    omega
  · -- tokens are kept positionally
    intro j hj
    have hjlen : j < (rest.takeWhile (fun pair => pair.2 ≤ R)).length + 1 := by
      simpa using hj
    simp only [List.getElem?_map]
    cases j with
    | zero => simp
    | succ k =>
        simp only [List.getElem?_cons_succ]
        have hk : k < (rest.takeWhile (fun pair => pair.2 ≤ R)).length := by omega
        have hgetk : rest[k]? = (rest.takeWhile (fun pair => pair.2 ≤ R))[k]? := by
          conv_lhs => rw [← ht]
          exact List.getElem?_append_left (by simpa using hk)
        rw [hgetk]
        cases htwk : (rest.takeWhile (fun pair => pair.2 ≤ R))[k]? with
        | none => rfl
        | some y => rfl

theorem getElem?_map_fst_eq {α β γ : Type} {l1 : List (α × β)} {l2 : List (α × γ)}
    (h : l1.map Prod.fst = l2.map Prod.fst) (j : ℕ) :
    l1[j]?.map Prod.fst = l2[j]?.map Prod.fst := by
  rw [← List.getElem?_map, ← List.getElem?_map, h]

theorem roundedTop_map_fst (sorted : List (Token × ℚ)) (k R : ℕ) :
    (roundedTop sorted k R).map Prod.fst = (sorted.take k).map Prod.fst := by
  unfold roundedTop
  rw [List.map_map, List.map_map]
  rfl

theorem cumulate_all_eq (acc : ℕ) (l : List (Token × ℕ))
    (h : ∀ p ∈ l, p.2 = 0) : ∀ q ∈ cumulate acc l, q.2 = acc := by
  induction l generalizing acc with
  | nil => intro q hq; simp [cumulate] at hq
  | cons p rest ih =>
      rcases p with ⟨t, r⟩
      intro q hq
      have hr : r = 0 := h (t, r) (by simp)
      rcases List.mem_cons.mp hq with rfl | hq2
      · show acc + r = acc
        omega
      · have := ih (acc + r) (fun p hp => h p (List.mem_cons_of_mem _ hp)) q hq2
        omega

/-- Master facts about the per-step cumulative table: non-empty, last entry
exactly `hi`, every entry strictly above `lo`, entries non-decreasing, and
token `j` of the table is token `j` of the sorted list. -/
theorem buildCumTable_spec (sorted : List (Token × ℚ)) (topK lo hi : ℕ)
    (hw : ∀ p ∈ sorted, 0 ≤ p.2)
    (hsorted : sorted.Pairwise (fun a b => b.2 ≤ a.2))
    (hne : sorted ≠ []) (hK : 1 ≤ topK) (hlohi : lo < hi) :
    buildCumTable sorted topK lo hi ≠ []
    ∧ (buildCumTable sorted topK lo hi).getLast?.map Prod.snd = some hi
    ∧ (∀ x ∈ buildCumTable sorted topK lo hi, lo + 1 ≤ x.2)
    ∧ (buildCumTable sorted topK lo hi).Pairwise (fun a b => a.2 ≤ b.2)
    ∧ (∀ j, j < (buildCumTable sorted topK lo hi).length →
        (buildCumTable sorted topK lo hi)[j]?.map Prod.fst
          = sorted[j]?.map Prod.fst) := by
  have hR1 : 1 ≤ hi - lo := by omega
  -- the kept top slice
  have hk1 : 1 ≤ keepCount sorted topK (hi - lo) := by
    unfold keepCount
    omega
  obtain ⟨hd, tl, htk⟩ : ∃ hd tl,
      sorted.take (keepCount sorted topK (hi - lo)) = hd :: tl := by
    rcases sorted with _ | ⟨a, l⟩
    · exact absurd rfl hne
    · rcases Nat.exists_eq_add_of_le hk1 with ⟨d, hd⟩
      rw [hd, Nat.add_comm, List.take_succ_cons]
      exact ⟨a, _, rfl⟩
  have htksub : ∀ p ∈ sorted.take (keepCount sorted topK (hi - lo)), p ∈ sorted :=
    fun p hp => List.take_subset _ _ hp
  have htknn : ∀ p ∈ sorted.take (keepCount sorted topK (hi - lo)), 0 ≤ p.2 :=
    fun p hp => hw p (htksub p hp)
  have htksorted : (sorted.take (keepCount sorted topK (hi - lo))).Pairwise
      (fun a b => b.2 ≤ a.2) :=
    List.Pairwise.sublist (List.take_sublist _ _) hsorted
  -- the scalar sum and the head weight
  have hSnn : 0 ≤ ((sorted.take (keepCount sorted topK (hi - lo))).map
      Prod.snd).sum := by
    apply List.sum_nonneg
    intro q hq
    rcases List.mem_map.mp hq with ⟨p, hp, rfl⟩
    exact htknn p hp
  have hhdS : hd.2 ≤ ((sorted.take (keepCount sorted topK (hi - lo))).map
      Prod.snd).sum := by
    rw [htk, List.map_cons, List.sum_cons]
    have : 0 ≤ (tl.map Prod.snd).sum := by
      apply List.sum_nonneg
      intro q hq
      rcases List.mem_map.mp hq with ⟨p, hp, rfl⟩
      exact htknn p (htk ▸ List.mem_cons_of_mem _ hp)
    linarith
  have hhdtl : ∀ p ∈ hd :: tl, p.2 ≤ hd.2 := by
    intro p hp
    rcases List.mem_cons.mp hp with rfl | hp2
    · exact le_refl _
    · exact (List.pairwise_cons.mp (htk ▸ htksorted)).1 p hp2
  -- the rounded weights
  have hround : roundedTop sorted (keepCount sorted topK (hi - lo)) (hi - lo)
      = (hd :: tl).map (fun pair => (pair.1, roundQ (pair.2
          * (((hi - lo : ℕ) : ℚ) / (((hd :: tl).map Prod.snd).sum))))) := by
    unfold roundedTop
    rw [htk, List.map_map]
    rfl
  set S : ℚ := ((hd :: tl).map Prod.snd).sum with hSdef
  have hSnn2 : 0 ≤ S := by
    rw [hSdef, ← htk]
    exact hSnn
  have hhdS2 : hd.2 ≤ S := by
    rw [hSdef, ← htk]
    exact hhdS
  have hfactor : (0:ℚ) ≤ ((hi - lo : ℕ) : ℚ) / S :=
    div_nonneg (by positivity) hSnn2
  have hr0le : roundQ (hd.2 * (((hi - lo : ℕ) : ℚ) / S)) ≤ hi - lo := by
    rcases eq_or_lt_of_le hSnn2 with hS0 | hSpos
    · rw [← hS0]
      show roundQ (hd.2 * (((hi - lo : ℕ) : ℚ) / 0)) ≤ hi - lo
      rw [div_zero, mul_zero]
      show roundQ 0 ≤ hi - lo
      unfold roundQ
      norm_num
    · apply roundQ_le
      have h1 : hd.2 * (((hi - lo : ℕ) : ℚ) / S)
          ≤ S * (((hi - lo : ℕ) : ℚ) / S) :=
        mul_le_mul_of_nonneg_right hhdS2 hfactor
      have h2 : S * (((hi - lo : ℕ) : ℚ) / S) = ((hi - lo : ℕ) : ℚ) := by
        field_simp
      linarith
  have hrmono : ∀ p ∈ hd :: tl,
      roundQ (p.2 * (((hi - lo : ℕ) : ℚ) / S))
        ≤ roundQ (hd.2 * (((hi - lo : ℕ) : ℚ) / S)) := by
    intro p hp
    exact roundQ_mono _ _ (mul_le_mul_of_nonneg_right (hhdtl p hp) hfactor)
  -- assemble the cumulated list
  have hcum : cumulate 0 (roundedTop sorted (keepCount sorted topK (hi - lo))
        (hi - lo))
      = (hd.1, roundQ (hd.2 * (((hi - lo : ℕ) : ℚ) / S)))
        :: cumulate (0 + roundQ (hd.2 * (((hi - lo : ℕ) : ℚ) / S)))
             (tl.map (fun pair =>
               (pair.1, roundQ (pair.2 * (((hi - lo : ℕ) : ℚ) / S))))) := by
    rw [hround, List.map_cons, cumulate_head, Nat.zero_add]
  set r0 := roundQ (hd.2 * (((hi - lo : ℕ) : ℚ) / S)) with hr0
  set rrest := cumulate (0 + r0) (tl.map (fun pair =>
    (pair.1, roundQ (pair.2 * (((hi - lo : ℕ) : ℚ) / S))))) with hrrestdef
  have hmonoc : ((hd.1, r0) :: rrest).Pairwise (fun a b => a.2 ≤ b.2) := by
    rw [← hcum]
    exact cumulate_pairwise 0 _
  have hcase : 1 ≤ (hd.1, r0).2 ∨ ∀ y ∈ (hd.1, r0) :: rrest, y.2 = 0 := by
    rcases Nat.lt_or_ge r0 1 with h0 | h1
    · right
      have hz : ∀ p ∈ roundedTop sorted (keepCount sorted topK (hi - lo))
          (hi - lo), p.2 = 0 := by
        intro p hp
        rw [hround] at hp
        rcases List.mem_map.mp hp with ⟨q, hq, rfl⟩
        have hle := hrmono q hq
        show roundQ _ = 0
        omega
      intro y hy
      exact cumulate_all_eq 0 _ hz y (by rw [hcum]; exact hy)
    · left
      exact h1
  have hspec := fixAndShift_spec (hi - lo) lo (hd.1, r0) rrest hR1
    hmonoc hr0le
  have hbuild : buildCumTable sorted topK lo hi
      = fixAndShift (hi - lo) lo ((hd.1, r0) :: rrest) := by
    unfold buildCumTable
    rw [hcum]
  rcases hspec with ⟨hs1, hs2, hs3, hs4, hs5⟩
  rw [hbuild]
  refine ⟨hs1, ?_, hs3 hcase, hs4, ?_⟩
  · rw [hs2]
    congr 1
    omega
  · intro j hj
    rw [hs5 j hj]
    -- tokens of cums are tokens of the take, are tokens of sorted
    have h1 : ((hd.1, r0) :: rrest).map Prod.fst
        = (sorted.take (keepCount sorted topK (hi - lo))).map Prod.fst := by
      rw [← hcum, cumulate_map_fst, roundedTop_map_fst]
    rw [getElem?_map_fst_eq h1 j]
    -- and the take keeps tokens positionally
    have hjk : j < keepCount sorted topK (hi - lo) := by
      have hlen1 : ((hd.1, r0) :: rrest).length
          = (sorted.take (keepCount sorted topK (hi - lo))).length := by
        rw [← hcum, cumulate_length]
        have := roundedTop_map_fst sorted (keepCount sorted topK (hi - lo)) (hi - lo)
        have hlen2 := congrArg List.length this
        rwa [List.length_map, List.length_map] at hlen2
      have hjlt : j < ((hd.1, r0) :: rrest).length := by
        by_contra hcon
        push_neg at hcon
        have hx := hs5 j hj
        rw [List.getElem?_eq_none (by omega : ((hd.1, r0) :: rrest).length ≤ j),
          List.getElem?_eq_getElem hj] at hx
        simp at hx
      rw [hlen1] at hjlt
      have := List.length_take (keepCount sorted topK (hi - lo)) sorted
      omega
    rw [List.getElem?_take_of_lt hjk]

theorem scaledProbabilities_sorted (M : Model) (τ : ℚ) (hist : List Token) :
    (scaledProbabilities M τ hist).Pairwise (fun a b => b.2 ≤ a.2) :=
  sortDesc_sorted _

/-! ## One arithmetic step, encoder and decoder in lockstep -/

set_option maxHeartbeats 1000000 in
theorem encodeStep_sim (M : Model) (τ : ℚ) (topK P : ℕ) (hist : List Token)
    (lo hi : ℕ) (m : List Bool) (i pos : ℕ) (step : ArithStep)
    (hτ : 0 < τ) (hK : 1 ≤ topK) (hV : 1 ≤ M.vocabSize)
    (hlohi : lo < hi) (hhi : hi ≤ 2 ^ P)
    (him : i ≤ m.length)
    (hxlo : lo ≤ Format.asLong (msgWindow m i P))
    (hxhi : Format.asLong (msgWindow m i P) < hi)
    (henc : encodeStep M τ topK P false hist lo hi m i = .ok step) :
    step.numberOfEncodedBits ≤ P
    ∧ step.topBits.take step.numberOfEncodedBits
        = msgWindow m i step.numberOfEncodedBits
    ∧ (∃ pad, step.bottomBits = msgWindow m i step.numberOfEncodedBits ++ pad)
    ∧ (∀ isLast : Bool,
        decodeStep M τ topK P false hist lo hi step.sampledToken pos isLast
          = .ok ((if isLast then step.bottomBits
              else step.topBits.take step.numberOfEncodedBits),
            step.newLo, step.newHi))
    ∧ step.newLo < step.newHi ∧ step.newHi ≤ 2 ^ P
    ∧ step.newLo ≤ Format.asLong (msgWindow m (i + step.numberOfEncodedBits) P)
    ∧ Format.asLong (msgWindow m (i + step.numberOfEncodedBits) P) < step.newHi
    := by
  obtain ⟨hT1, hT2, hT3, hT4, hT5⟩ := buildCumTable_spec (scaledProbabilities M τ hist)
    topK lo hi (scaledProbabilities_nonneg M τ hτ hist)
    (scaledProbabilities_sorted M τ hist) (scaledProbabilities_ne_nil M τ hist hV)
    hK hlohi
  unfold encodeStep at henc
  simp only [Bool.false_eq_true, Bool.false_and, if_false, pure_bind] at henc
  rw [cipherBitSubvector_eq_msgWindow m i P him] at henc
  set x := Format.asLong (msgWindow m i P) with hxdef
  set T := buildCumTable (scaledProbabilities M τ hist) topK lo hi with hTdef
  clear_value T
  have hTpos : 0 < T.length := List.length_pos.mpr hT1
  have hlastmem : T.getLast hT1 ∈ T := List.getLast_mem hT1
  have hlasthi : (T.getLast hT1).2 = hi := by
    rw [List.getLast?_eq_getLast T hT1] at hT2
    simp only [Option.map_some'] at hT2
    exact Option.some.inj hT2
  have hj : List.findIdx (fun pair => decide (x < pair.2)) T < T.length := by
    apply List.findIdx_lt_length_of_exists
    refine ⟨T.getLast hT1, hlastmem, ?_⟩
    show decide (x < (T.getLast hT1).2) = true
    rw [hlasthi]
    exact decide_eq_true hxhi
  have hfound := List.findIdx_getElem (w := hj)
  simp only [decide_eq_true_eq] at hfound
  have hbefore : ∀ k, (hk : k < T.length) →
      k < List.findIdx (fun pair => decide (x < pair.2)) T →
      (getElem T k hk).2 ≤ x := by
    intro k hk hlt
    have hnp := List.not_of_lt_findIdx hlt
    simp only [decide_eq_false_iff_not, Nat.not_lt] at hnp
    exact hnp
  set j := List.findIdx (fun pair => decide (x < pair.2)) T with hjdef
  have hget : T.get? j = some (getElem T j hj) := List.get?_eq_get hj
  rw [hget] at henc
  injection henc with hstep
  set bot := (if j = 0 then lo else ((T.get? (j - 1)).getD (0, 0)).2) with hbotdef
  set top := (getElem T j hj).2 with htopdef
  set bBits := Format.asBitVector (bot : ℤ) P with hbBdef
  set tBits := Format.asBitVector ((top : ℤ) - 1) P with htBdef
  set n := numberOfSameBitsFromBeginning bBits tBits with hndef
  clear_value j bot top bBits tBits n
  have hTok : step.sampledToken = (getElem T j hj).1 := by rw [← hstep]
  have hN : step.numberOfEncodedBits = n := by rw [← hstep]
  have hBB : step.bottomBits = bBits := by rw [← hstep]
  have hTB : step.topBits = tBits := by rw [← hstep]
  have hLo : step.newLo
      = Format.asLong (bBits.drop n ++ List.replicate n false) := by
    rw [← hstep]
  have hHi : step.newHi
      = Format.asLong (tBits.drop n ++ List.replicate n true) + 1 := by
    rw [← hstep]
  -- numeric bounds on the selected sub-interval
  have hxP : x < 2 ^ P := by
    rw [hxdef]
    exact msgWindow_val_lt m i P
  have htoplo : lo + 1 ≤ top := by
    rw [htopdef]
    exact hT3 _ (List.get?_mem hget)
  have hbotlo : lo ≤ bot ∧ bot ≤ x := by
    rcases Nat.eq_zero_or_pos j with hj0 | hj0
    · rw [hbotdef, if_pos hj0]
      exact ⟨le_refl lo, hxlo⟩
    · have hj1 : j - 1 < T.length := by omega
      have hq : T.get? (j - 1) = some (getElem T (j - 1) hj1) := by
        rw [List.get?_eq_getElem?]
        exact List.getElem?_eq_getElem hj1
      rw [hbotdef, if_neg (by omega : ¬ j = 0), hq, Option.getD_some]
      exact ⟨le_of_lt (hT3 _ (List.get?_mem hq)), hbefore (j - 1) hj1 (by omega)⟩
  obtain ⟨hlobot, hbotx⟩ := hbotlo
  have hlast1 : T.length - 1 < T.length := by omega
  have hlastval : (getElem T (T.length - 1) hlast1).2 = hi := by
    have h2 := hT2
    rw [List.getLast?_eq_getElem?, List.getElem?_eq_getElem hlast1] at h2
    simp only [Option.map_some'] at h2
    exact Option.some.inj h2
  have htophi : top ≤ hi := by
    rw [htopdef]
    rcases lt_or_eq_of_le (by omega : j ≤ T.length - 1) with hjl | hje
    · have hp := List.pairwise_iff_getElem.mp hT4 j (T.length - 1) hj hlast1 hjl
      exact le_trans hp (le_of_eq hlastval)
    · have hq : T[j]? = T[T.length - 1]? := by rw [hje]
      rw [List.getElem?_eq_getElem hj, List.getElem?_eq_getElem hlast1] at hq
      have h1 : (getElem T j hj).2 = (getElem T (T.length - 1) hlast1).2 :=
        congrArg Prod.snd (Option.some.inj hq)
      exact le_of_eq (h1.trans hlastval)
  have hbotP : bot < 2 ^ P := by omega
  have htP : top - 1 < 2 ^ P := by omega
  have hxtop1 : x ≤ top - 1 := by omega
  -- normalize the bit vectors
  have hbB : bBits = natBits P bot := by
    rw [hbBdef]
    exact asBitVector_natCast bot P hbotP
  have hcast : ((top : ℤ) - 1) = (((top - 1 : ℕ)) : ℤ) := by omega
  have htB : tBits = natBits P (top - 1) := by
    rw [htBdef, hcast]
    exact asBitVector_natCast (top - 1) P htP
  have hn2 : n = numberOfSameBitsFromBeginning (natBits P bot)
      (natBits P (top - 1)) := by
    rw [hndef, hbB, htB]
  have hnP : n ≤ P := by
    rw [hn2]
    exact sameBits_natBits_le P bot (top - 1)
  have hmw : natBits P x = msgWindow m i P := by
    rw [hxdef]
    exact msgWindow_natBits m i P
  have htake : tBits.take n = msgWindow m i n := by
    have hpinch := natBits_take_pinch P bot (top - 1) x htP hbotx hxtop1
    rw [← hn2] at hpinch
    rw [htB, ← hpinch, hmw]
    exact msgWindow_take m i P n hnP
  have hbtake : bBits.take n = msgWindow m i n := by
    have hst := sameBits_take_eq (natBits P bot) (natBits P (top - 1))
    rw [← hn2] at hst
    rw [hbB, hst, ← htB]
    exact htake
  -- rank of the sampled token on the decoder side
  have hjs : j < (scaledProbabilities M τ hist).length := by
    by_contra hcon
    push_neg at hcon
    have h5 := hT5 j hj
    rw [List.getElem?_eq_none hcon, List.getElem?_eq_getElem hj] at h5
    simp at h5
  have h5 := hT5 j hj
  rw [List.getElem?_eq_getElem hj, List.getElem?_eq_getElem hjs] at h5
  simp only [Option.map_some'] at h5
  have h5b : (getElem T j hj).1
      = (getElem (scaledProbabilities M τ hist) j hjs).1 := Option.some.inj h5
  have hrank0 : List.findIdx (fun pair => decide (pair.1 = (getElem T j hj).1))
      (scaledProbabilities M τ hist) = j := by
    rw [h5b]
    exact findIdx_fst_nodup (scaledProbabilities M τ hist) j hjs
      (scaledProbabilities_fst_nodup M τ hist)
  -- the interval-update values
  have hdiv : bot / 2 ^ (P - n) = (top - 1) / 2 ^ (P - n) := by
    have h := sameBits_natBits_div P bot (top - 1) hbotP htP
    rwa [← hn2] at h
  have hLoval : Format.asLong (bBits.drop n ++ List.replicate n false)
      = bot % 2 ^ (P - n) * 2 ^ n := by
    rw [hbB]
    exact asLong_drop_replicate_false P n bot hnP hbotP
  have hHival : Format.asLong (tBits.drop n ++ List.replicate n true) + 1
      = (top - 1) % 2 ^ (P - n) * 2 ^ n + 2 ^ n := by
    rw [htB]
    exact asLong_drop_replicate_true P n (top - 1) hnP htP
  have hmodp := mod_pinch bot (top - 1) x (2 ^ (P - n)) hbotx hxtop1 hdiv
  have hs1 : x = Format.asLong (msgWindow m i n) * 2 ^ (P - n)
      + Format.asLong (msgWindow m (i + n) (P - n)) := by
    have h := msgWindow_val_split m i n (P - n)
    rw [show n + (P - n) = P from by omega] at h
    rw [hxdef]
    exact h
  have hYlt : Format.asLong (msgWindow m (i + n) (P - n)) < 2 ^ (P - n) :=
    msgWindow_val_lt m (i + n) (P - n)
  have hxmod : x % 2 ^ (P - n)
      = Format.asLong (msgWindow m (i + n) (P - n)) := by
    rw [hs1, Nat.mul_comm, Nat.mul_add_mod, Nat.mod_eq_of_lt hYlt]
  have hs2 : Format.asLong (msgWindow m (i + n) P)
      = Format.asLong (msgWindow m (i + n) (P - n)) * 2 ^ n
        + Format.asLong (msgWindow m (i + P) n) := by
    have h := msgWindow_val_split m (i + n) (P - n) n
    rw [show P - n + n = P from by omega,
      show i + n + (P - n) = i + P from by omega] at h
    exact h
  have hZlt : Format.asLong (msgWindow m (i + P) n) < 2 ^ n :=
    msgWindow_val_lt m (i + P) n
  obtain ⟨hm1, hm2⟩ := hmodp
  rw [hxmod] at hm1 hm2
  have hmul1 : bot % 2 ^ (P - n) * 2 ^ n
      ≤ Format.asLong (msgWindow m (i + n) (P - n)) * 2 ^ n :=
    Nat.mul_le_mul_right _ hm1
  have hmul2 : Format.asLong (msgWindow m (i + n) (P - n)) * 2 ^ n
      ≤ (top - 1) % 2 ^ (P - n) * 2 ^ n :=
    Nat.mul_le_mul_right _ hm2
  have hdlt : (top - 1) % 2 ^ (P - n) < 2 ^ (P - n) :=
    Nat.mod_lt _ (Nat.pos_pow_of_pos _ (by norm_num))
  have h3 : 2 ^ (P - n) * 2 ^ n = 2 ^ P := by
    rw [← pow_add]
    congr 1
    omega
  have hmul3 : (top - 1) % 2 ^ (P - n) * 2 ^ n + 2 ^ n ≤ 2 ^ P := by
    have h1 : (top - 1) % 2 ^ (P - n) + 1 ≤ 2 ^ (P - n) := hdlt
    have h2 : ((top - 1) % 2 ^ (P - n) + 1) * 2 ^ n ≤ 2 ^ (P - n) * 2 ^ n :=
      Nat.mul_le_mul_right _ h1
    rw [Nat.add_mul, Nat.one_mul, h3] at h2
    exact h2
  have hone : (1:ℕ) ≤ 2 ^ n := Nat.one_le_two_pow
  refine ⟨?_, ?_, ?_, ?_, ?_, ?_, ?_, ?_⟩
  · rw [hN]
    exact hnP
  · rw [hTB, hN]
    exact htake
  · rw [hBB, hN]
    refine ⟨bBits.drop n, ?_⟩
    rw [← hbtake, List.take_append_drop]
  · intro isLast
    rw [hTok, hBB, hTB, hN, hLo, hHi]
    unfold decodeStep
    simp only [Bool.false_eq_true, if_false, pure_bind]
    rw [← hTdef, hrank0, if_neg (by omega : ¬ T.length < j), hget,
      ← hbotdef, ← hbBdef]
    dsimp only
    rw [← htopdef, ← htBdef, ← hndef]
    rfl
  · rw [hLo, hHi, hLoval, hHival]
    omega
  · rw [hHi, hHival]
    exact hmul3
  · rw [hN, hLo, hLoval, hs2]
    omega
  · rw [hN, hHi, hHival, hs2]
    omega

theorem exceptBind_ok {ε α β : Type} (a : α) (f : α → Except ε β) :
    (Except.ok a >>= f) = f a := rfl

theorem exceptBind_error {ε α β : Type} (e : ε) (a : α → Except ε β) :
    ((Except.error e : Except ε α) >>= a) = Except.error e := rfl

theorem exceptThrow_ne_ok {ε α : Type} (e : ε) (a : α) :
    (throw e : Except ε α) ≠ Except.ok a := fun h => Except.noConfusion h

/-- An empty token list can only come out of the encoder loop when the loop
condition is false: all message bits are consumed and the last sentence is
finished. -/
theorem encodeLoop_ok_nil (M : Model) (τ : ℚ) (topK P : ℕ) (ctx0 : List Token)
    (m : List Bool) (fuel : ℕ) (kv : List Token) (fr : Bool) (tk : Token)
    (i lo hi : ℕ) (last : Bool)
    (h : encodeLoop M τ topK P false ctx0 m fuel kv fr tk i lo hi last
      = Except.ok []) : m.length ≤ i ∧ last = true := by
  cases fuel with
  | zero => exact absurd h (exceptThrow_ne_ok _ _)
  | succ fuel =>
      unfold encodeLoop at h
      set H := kv ++ (if fr then ctx0 else [tk]) with hH
      by_cases him : i < m.length
      · exfalso
        rw [if_pos (by simp [him]), if_pos him] at h
        cases hs : encodeStep M τ topK P false H lo hi m i with
        | error e =>
            rw [hs, exceptBind_error] at h
            exact Except.noConfusion h
        | ok step =>
            rw [hs, exceptBind_ok] at h
            cases hnul : getAsciiNul M with
            | none =>
                rw [hnul] at h
                exact exceptThrow_ne_ok _ _ h
            | some nul =>
                rw [hnul] at h
                dsimp only at h
                by_cases heq : step.sampledToken = nul
                · rw [if_pos heq] at h
                  exact List.cons_ne_nil _ _ (Except.ok.inj h)
                · rw [if_neg heq] at h
                  cases hr : encodeLoop M τ topK P false ctx0 m fuel
                      H false step.sampledToken
                      (i + step.numberOfEncodedBits) step.newLo step.newHi
                      last with
                  | error e =>
                      rw [hr, exceptBind_error] at h
                      exact Except.noConfusion h
                  | ok rest =>
                      rw [hr, exceptBind_ok] at h
                      exact List.cons_ne_nil _ _ (Except.ok.inj h)
      · cases last with
        | false =>
            exfalso
            rw [if_pos (by simp), if_neg him] at h
            cases ht : getTopProbability M H with
            | none =>
                rw [ht] at h
                exact exceptThrow_ne_ok _ _ h
            | some tok =>
                rw [ht] at h
                dsimp only at h
                cases hnul : getAsciiNul M with
                | none =>
                    rw [hnul] at h
                    exact exceptThrow_ne_ok _ _ h
                | some nul =>
                    rw [hnul] at h
                    dsimp only at h
                    by_cases heq : tok = nul
                    · rw [if_pos heq] at h
                      exact List.cons_ne_nil _ _ (Except.ok.inj h)
                    · rw [if_neg heq] at h
                      cases hr : encodeLoop M τ topK P false ctx0 m fuel
                          H fr tok i lo hi (M.endsSentence tok) with
                      | error e =>
                          rw [hr, exceptBind_error] at h
                          exact Except.noConfusion h
                      | ok rest =>
                          rw [hr, exceptBind_ok] at h
                          exact List.cons_ne_nil _ _ (Except.ok.inj h)
        | true => exact ⟨by omega, rfl⟩

theorem exceptError_ne_ok {ε α : Type} (e : ε) (a : α) :
    (Except.error e : Except ε α) ≠ Except.ok a := fun h => Except.noConfusion h

set_option maxHeartbeats 1000000 in
/-- One decoder step on the model's most likely token succeeds from any valid
interval state and keeps the state valid: the token has rank 0 in the sorted
list, so the first table entry is read. -/
theorem decodeStep_greedy (M : Model) (τ : ℚ) (topK P : ℕ) (hist : List Token)
    (lo2 hi2 : ℕ) (tok : Token) (pos : ℕ) (isLast : Bool)
    (hτ : 0 < τ) (hK : 1 ≤ topK) (hV : 1 ≤ M.vocabSize)
    (hlohi : lo2 < hi2) (hhi : hi2 ≤ 2 ^ P)
    (ht : getTopProbability M hist = some tok) :
    ∃ bits lo3 hi3,
      decodeStep M τ topK P false hist lo2 hi2 tok pos isLast
        = Except.ok (bits, lo3, hi3) ∧ lo3 < hi3 ∧ hi3 ≤ 2 ^ P := by
  obtain ⟨hT1, hT2, hT3, hT4, hT5⟩ := buildCumTable_spec (scaledProbabilities M τ hist)
    topK lo2 hi2 (scaledProbabilities_nonneg M τ hτ hist)
    (scaledProbabilities_sorted M τ hist) (scaledProbabilities_ne_nil M τ hist hV)
    hK hlohi
  have hhead : ∃ a tl, sortDesc (tokenProbs M hist) = a :: tl ∧ a.1 = tok := by
    unfold getTopProbability at ht
    cases hsd : sortDesc (tokenProbs M hist) with
    | nil =>
        rw [hsd] at ht
        simp at ht
    | cons a tl =>
        rw [hsd] at ht
        simp only [List.head?_cons, Option.map_some'] at ht
        exact ⟨a, tl, rfl, Option.some.inj ht⟩
  obtain ⟨a, tl, hsd, hatok⟩ := hhead
  have hrank : List.findIdx (fun pair => decide (pair.1 = tok))
      (scaledProbabilities M τ hist) = 0 := by
    rw [scaledProbabilities_map M τ hτ hist, hsd, List.map_cons, List.findIdx_cons]
    simp [hatok]
  set T := buildCumTable (scaledProbabilities M τ hist) topK lo2 hi2 with hTdef
  clear_value T
  have hTpos : 0 < T.length := List.length_pos.mpr hT1
  have hget : T.get? 0 = some (getElem T 0 hTpos) := List.get?_eq_get hTpos
  unfold decodeStep
  simp only [Bool.false_eq_true, if_false, pure_bind]
  rw [← hTdef, hrank, if_neg (Nat.not_lt_zero _), hget]
  dsimp only
  rw [if_pos (rfl : (0:ℕ) = 0)]
  set top := (getElem T 0 hTpos).2 with htopdef
  set bBits := Format.asBitVector (lo2 : ℤ) P with hbBdef
  set tBits := Format.asBitVector ((top : ℤ) - 1) P with htBdef
  set n := numberOfSameBitsFromBeginning bBits tBits with hndef
  clear_value top bBits tBits n
  have htoplo : lo2 + 1 ≤ top := by
    rw [htopdef]
    exact hT3 _ (List.get?_mem hget)
  have hlast1 : T.length - 1 < T.length := by omega
  have hlastval : (getElem T (T.length - 1) hlast1).2 = hi2 := by
    have h2 := hT2
    rw [List.getLast?_eq_getElem?, List.getElem?_eq_getElem hlast1] at h2
    simp only [Option.map_some'] at h2
    exact Option.some.inj h2
  have htophi : top ≤ hi2 := by
    rw [htopdef]
    rcases Nat.eq_zero_or_pos (T.length - 1) with hz | hpos2
    · have hq : T[0]? = T[T.length - 1]? := by rw [hz]
      rw [List.getElem?_eq_getElem hTpos, List.getElem?_eq_getElem hlast1] at hq
      exact le_of_eq ((congrArg Prod.snd (Option.some.inj hq)).trans hlastval)
    · have hp := List.pairwise_iff_getElem.mp hT4 0 (T.length - 1) hTpos hlast1 hpos2
      exact le_trans hp (le_of_eq hlastval)
  have hbotP : lo2 < 2 ^ P := by omega
  have htP : top - 1 < 2 ^ P := by omega
  have hble : lo2 ≤ top - 1 := by omega
  have hbB : bBits = natBits P lo2 := by
    rw [hbBdef]
    exact asBitVector_natCast lo2 P hbotP
  have hcast : ((top : ℤ) - 1) = (((top - 1 : ℕ)) : ℤ) := by omega
  have htB : tBits = natBits P (top - 1) := by
    rw [htBdef, hcast]
    exact asBitVector_natCast (top - 1) P htP
  have hn2 : n = numberOfSameBitsFromBeginning (natBits P lo2)
      (natBits P (top - 1)) := by
    rw [hndef, hbB, htB]
  have hnP : n ≤ P := by
    rw [hn2]
    exact sameBits_natBits_le P lo2 (top - 1)
  have hdiv : lo2 / 2 ^ (P - n) = (top - 1) / 2 ^ (P - n) := by
    have h := sameBits_natBits_div P lo2 (top - 1) hbotP htP
    rwa [← hn2] at h
  have hLoval : Format.asLong (bBits.drop n ++ List.replicate n false)
      = lo2 % 2 ^ (P - n) * 2 ^ n := by
    rw [hbB]
    exact asLong_drop_replicate_false P n lo2 hnP hbotP
  have hHival : Format.asLong (tBits.drop n ++ List.replicate n true) + 1
      = (top - 1) % 2 ^ (P - n) * 2 ^ n + 2 ^ n := by
    rw [htB]
    exact asLong_drop_replicate_true P n (top - 1) hnP htP
  obtain ⟨hm1, hm2⟩ := mod_pinch lo2 (top - 1) lo2 (2 ^ (P - n))
    (le_refl _) hble hdiv
  have hmul2 : lo2 % 2 ^ (P - n) * 2 ^ n ≤ (top - 1) % 2 ^ (P - n) * 2 ^ n :=
    Nat.mul_le_mul_right _ hm2
  have hdlt : (top - 1) % 2 ^ (P - n) < 2 ^ (P - n) :=
    Nat.mod_lt _ (Nat.pos_pow_of_pos _ (by norm_num))
  have h3 : 2 ^ (P - n) * 2 ^ n = 2 ^ P := by
    rw [← pow_add]
    congr 1
    omega
  have hmul3 : (top - 1) % 2 ^ (P - n) * 2 ^ n + 2 ^ n ≤ 2 ^ P := by
    have h1 : (top - 1) % 2 ^ (P - n) + 1 ≤ 2 ^ (P - n) := hdlt
    have h2 : ((top - 1) % 2 ^ (P - n) + 1) * 2 ^ n ≤ 2 ^ (P - n) * 2 ^ n :=
      Nat.mul_le_mul_right _ h1
    rw [Nat.add_mul, Nat.one_mul, h3] at h2
    exact h2
  have hone : (1:ℕ) ≤ 2 ^ n := Nat.one_le_two_pow
  refine ⟨_, _, _, rfl, ?_, ?_⟩
  · rw [hLoval, hHival]
    omega
  · rw [hHival]
    exact hmul3

/-- After the message is exhausted the encoder emits most-likely tokens only
(and, the first-run flag being already cleared, feeds exactly the last
sampled token each iteration), so the decoder loop accepts the remaining
cover tokens from any valid interval state. -/
theorem greedy_sim (M : Model) (τ : ℚ) (topK P : ℕ) (ctx0 : List Token)
    (m : List Bool) (fuel : ℕ) :
    ∀ (kv : List Token) (tk : Token) (i lo hi : ℕ) (last : Bool)
      (ts : List Token) (lo2 hi2 pos : ℕ),
      0 < τ → 1 ≤ topK → 1 ≤ M.vocabSize → lo2 < hi2 → hi2 ≤ 2 ^ P →
      m.length ≤ i →
      encodeLoop M τ topK P false ctx0 m fuel kv false tk i lo hi last
        = Except.ok ts →
      ∃ bits, decodeLoop M τ topK P false (kv ++ [tk]) ts lo2 hi2 pos
        = Except.ok bits := by
  induction fuel with
  | zero =>
      intro kv tk i lo hi last ts lo2 hi2 pos _ _ _ _ _ _ h
      exact absurd h (exceptThrow_ne_ok _ _)
  | succ fuel ih =>
      intro kv tk i lo hi last ts lo2 hi2 pos hτ hK hV hlohi hhi him h
      unfold encodeLoop at h
      simp only [Bool.false_eq_true, if_false] at h
      cases last with
      | true =>
          rw [if_neg (by simp; omega)] at h
          have hts : ts = [] := (Except.ok.inj h).symm
          subst hts
          exact ⟨[], rfl⟩
      | false =>
          rw [if_pos (by simp), if_neg (by omega : ¬ i < m.length)] at h
          cases hg : getTopProbability M (kv ++ [tk]) with
          | none =>
              rw [hg] at h
              exact absurd h (exceptThrow_ne_ok _ _)
          | some tok =>
              rw [hg] at h
              dsimp only at h
              cases hnul : getAsciiNul M with
              | none =>
                  rw [hnul] at h
                  exact absurd h (exceptThrow_ne_ok _ _)
              | some nul =>
                  rw [hnul] at h
                  dsimp only at h
                  by_cases heq : tok = nul
                  · rw [if_pos heq] at h
                    have hts : ts = [tok] := (Except.ok.inj h).symm
                    subst hts
                    obtain ⟨bits1, lo3, hi3, hdec, hlt3, hle3⟩ :=
                      decodeStep_greedy M τ topK P (kv ++ [tk]) lo2 hi2 tok pos
                        (([] : List Token).isEmpty) hτ hK hV hlohi hhi hg
                    refine ⟨bits1 ++ [], ?_⟩
                    simp only [decodeLoop]
                    rw [hdec, exceptBind_ok]
                    dsimp only
                    rw [pure_bind]
                    rfl
                  · rw [if_neg heq] at h
                    cases hr : encodeLoop M τ topK P false ctx0 m fuel
                        (kv ++ [tk]) false tok i lo hi
                        (M.endsSentence tok) with
                    | error e =>
                        rw [hr, exceptBind_error] at h
                        exact absurd h (exceptError_ne_ok _ _)
                    | ok rest =>
                        rw [hr, exceptBind_ok] at h
                        have hts : ts = tok :: rest := (Except.ok.inj h).symm
                        subst hts
                        obtain ⟨bits1, lo3, hi3, hdec, hlt3, hle3⟩ :=
                          decodeStep_greedy M τ topK P (kv ++ [tk]) lo2 hi2
                            tok pos rest.isEmpty hτ hK hV hlohi hhi hg
                        obtain ⟨bits2, hdec2⟩ := ih (kv ++ [tk]) tok i lo hi
                          (M.endsSentence tok) rest lo3 hi3 (pos + 1)
                          hτ hK hV hlt3 hle3 him hr
                        refine ⟨bits1 ++ bits2, ?_⟩
                        simp only [decodeLoop]
                        rw [hdec, exceptBind_ok]
                        dsimp only
                        rw [hdec2, exceptBind_ok]
                        rfl

/-- Lockstep simulation of the prompted encoder by the decoder: on the
encoder's cover tokens, the decoder emits the not-yet-consumed message bits
followed by padding and greedy-phase bits, provided no cover token is the
`getAsciiNul` token (which would have cut the message short, claim C1) and
either message bits remain or the first-run flag is already cleared (an
all-greedy run with the flag still set re-feeds the context tokens each
iteration, diverging from the decoder's histories). -/
theorem encodeLoop_decode (M : Model) (τ : ℚ) (topK P : ℕ) (ctx0 : List Token)
    (m : List Bool) (fuel : ℕ) :
    ∀ (kv : List Token) (fr : Bool) (tk : Token) (i lo hi : ℕ) (last : Bool)
      (ts : List Token) (pos : ℕ),
      0 < τ → 1 ≤ topK → 1 ≤ M.vocabSize → lo < hi → hi ≤ 2 ^ P →
      i ≤ m.length → (i < m.length ∨ fr = false) →
      lo ≤ Format.asLong (msgWindow m i P) →
      Format.asLong (msgWindow m i P) < hi →
      (∀ nul, getAsciiNul M = some nul → nul ∉ ts) →
      encodeLoop M τ topK P false ctx0 m fuel kv fr tk i lo hi last
        = Except.ok ts →
      ∃ tail, decodeLoop M τ topK P false
          (kv ++ (if fr then ctx0 else [tk])) ts lo hi pos
        = Except.ok (m.drop i ++ tail) := by
  induction fuel with
  | zero =>
      intro kv fr tk i lo hi last ts pos _ _ _ _ _ _ _ _ _ _ h
      exact absurd h (exceptThrow_ne_ok _ _)
  | succ fuel ih =>
      intro kv fr tk i lo hi last ts pos hτ hK hV hlohi hhi him hfrc hxlo
        hxhi hnonul h
      by_cases himlt : i < m.length
      · unfold encodeLoop at h
        set H := kv ++ (if fr then ctx0 else [tk]) with hH
        rw [if_pos (by simp [himlt]), if_pos himlt] at h
        cases hs : encodeStep M τ topK P false H lo hi m i with
        | error e =>
            rw [hs, exceptBind_error] at h
            exact absurd h (exceptError_ne_ok _ _)
        | ok step =>
            rw [hs, exceptBind_ok] at h
            cases hnul : getAsciiNul M with
            | none =>
                rw [hnul] at h
                exact absurd h (exceptThrow_ne_ok _ _)
            | some nul =>
                rw [hnul] at h
                dsimp only at h
                by_cases heq : step.sampledToken = nul
                · exfalso
                  rw [if_pos heq] at h
                  have hts : ts = [step.sampledToken] := (Except.ok.inj h).symm
                  refine hnonul nul hnul ?_
                  rw [hts, heq]
                  exact List.mem_singleton_self _
                · rw [if_neg heq] at h
                  cases hr : encodeLoop M τ topK P false ctx0 m fuel
                      H false step.sampledToken
                      (i + step.numberOfEncodedBits) step.newLo step.newHi
                      last with
                  | error e =>
                      rw [hr, exceptBind_error] at h
                      exact absurd h (exceptError_ne_ok _ _)
                  | ok rest =>
                      rw [hr, exceptBind_ok] at h
                      have hts : ts = step.sampledToken :: rest :=
                        (Except.ok.inj h).symm
                      subst hts
                      obtain ⟨hnP, htake, ⟨pad, hpad⟩, hdecstep, hlt, hle,
                          hxlo2, hxhi2⟩ :=
                        encodeStep_sim M τ topK P H lo hi m i pos step
                          hτ hK hV hlohi hhi (le_of_lt himlt) hxlo hxhi hs
                      by_cases hrest : rest = []
                      · subst hrest
                        obtain ⟨hdone, hlastT⟩ := encodeLoop_ok_nil M τ topK P
                          ctx0 m fuel H false step.sampledToken _ _ _ _ hr
                        refine ⟨List.replicate (step.numberOfEncodedBits
                            - (m.length - i)) false ++ pad, ?_⟩
                        simp only [decodeLoop, List.isEmpty_nil]
                        rw [hdecstep true, exceptBind_ok]
                        dsimp only
                        rw [pure_bind, if_pos rfl, hpad]
                        have hmw := msgWindow_eq_take_append m i
                          step.numberOfEncodedBits him
                        rw [List.take_of_length_le
                          (by simp only [List.length_drop]; omega)] at hmw
                        rw [hmw]
                        simp only [List.append_nil, List.append_assoc]
                        rfl
                      · have hIsE : rest.isEmpty = false :=
                          List.isEmpty_eq_false.mpr hrest
                        by_cases hA : i + step.numberOfEncodedBits ≤ m.length
                        · obtain ⟨tail2, hdec2⟩ := ih
                            H false step.sampledToken
                            (i + step.numberOfEncodedBits) step.newLo
                            step.newHi last rest (pos + 1) hτ hK hV hlt hle
                            hA (Or.inr rfl) hxlo2 hxhi2
                            (fun nul2 hnul2 hmem => hnonul nul2 hnul2
                              (List.mem_cons_of_mem _ hmem)) hr
                          simp only [Bool.false_eq_true, if_false] at hdec2
                          refine ⟨tail2, ?_⟩
                          simp only [decodeLoop, hIsE]
                          rw [hdecstep false, exceptBind_ok]
                          dsimp only
                          rw [hdec2, exceptBind_ok]
                          simp only [Bool.false_eq_true, if_false]
                          rw [htake, msgWindow_all_in m i _ hA]
                          rw [show m.drop (i + step.numberOfEncodedBits)
                              = (m.drop i).drop step.numberOfEncodedBits from
                            (List.drop_drop _ _ _).symm]
                          rw [← List.append_assoc, List.take_append_drop]
                          rfl
                        · push_neg at hA
                          obtain ⟨bits2, hdec2⟩ := greedy_sim M τ topK P ctx0
                            m fuel H step.sampledToken
                            (i + step.numberOfEncodedBits) step.newLo
                            step.newHi last rest step.newLo step.newHi
                            (pos + 1) hτ hK hV hlt hle (by omega) hr
                          refine ⟨List.replicate (step.numberOfEncodedBits
                              - (m.length - i)) false ++ bits2, ?_⟩
                          simp only [decodeLoop, hIsE]
                          rw [hdecstep false, exceptBind_ok]
                          dsimp only
                          rw [hdec2, exceptBind_ok]
                          simp only [Bool.false_eq_true, if_false]
                          rw [htake]
                          have hmw := msgWindow_eq_take_append m i
                            step.numberOfEncodedBits him
                          rw [List.take_of_length_le
                            (by simp only [List.length_drop]; omega)] at hmw
                          rw [hmw, List.append_assoc]
                          rfl
      · push_neg at himlt
        have hfr : fr = false := hfrc.resolve_left (by omega)
        subst hfr
        simp only [Bool.false_eq_true, if_false]
        obtain ⟨bits, hdec⟩ := greedy_sim M τ topK P ctx0 m (fuel + 1) kv tk
          i lo hi last ts lo hi pos hτ hK hV hlohi hhi himlt h
        refine ⟨bits, ?_⟩
        rw [List.drop_eq_nil_of_le himlt, List.nil_append]
        exact hdec

/-! ## Helper lemmas for the sampling and Huffman claims -/

theorem getTopProbability_isSome (M : Model) (hist : List Token)
    (hV : 1 ≤ M.vocabSize) :
    ∃ tok, getTopProbability M hist = some tok := by
  have hlen : (sortDesc (tokenProbs M hist)).length = M.vocabSize := by
    rw [(sortDesc_perm _).length_eq]
    unfold tokenProbs
    rw [List.length_map, List.length_range]
  cases hsd : sortDesc (tokenProbs M hist) with
  | nil =>
      rw [hsd] at hlen
      simp at hlen
      omega
  | cons a tl =>
      refine ⟨a.1, ?_⟩
      unfold getTopProbability
      rw [hsd]
      rfl

set_option maxHeartbeats 1000000 in
/-- With a valid interval and the message value inside it, the encoder step
cannot fail: the table search finds a sub-interval. -/
theorem encodeStep_ok (M : Model) (τ : ℚ) (topK P : ℕ) (hist : List Token)
    (lo hi : ℕ) (m : List Bool) (i : ℕ)
    (hτ : 0 < τ) (hK : 1 ≤ topK) (hV : 1 ≤ M.vocabSize)
    (hlohi : lo < hi) (hhi : hi ≤ 2 ^ P) (him : i ≤ m.length)
    (hxlo : lo ≤ Format.asLong (msgWindow m i P))
    (hxhi : Format.asLong (msgWindow m i P) < hi) :
    ∃ step, encodeStep M τ topK P false hist lo hi m i = Except.ok step := by
  obtain ⟨hT1, hT2, hT3, hT4, hT5⟩ := buildCumTable_spec (scaledProbabilities M τ hist)
    topK lo hi (scaledProbabilities_nonneg M τ hτ hist)
    (scaledProbabilities_sorted M τ hist) (scaledProbabilities_ne_nil M τ hist hV)
    hK hlohi
  unfold encodeStep
  simp only [Bool.false_eq_true, Bool.false_and, if_false, pure_bind]
  rw [cipherBitSubvector_eq_msgWindow m i P him]
  set x := Format.asLong (msgWindow m i P) with hxdef
  set T := buildCumTable (scaledProbabilities M τ hist) topK lo hi with hTdef
  clear_value T
  have hlastmem : T.getLast hT1 ∈ T := List.getLast_mem hT1
  have hlasthi : (T.getLast hT1).2 = hi := by
    rw [List.getLast?_eq_getLast T hT1] at hT2
    simp only [Option.map_some'] at hT2
    exact Option.some.inj hT2
  have hj : List.findIdx (fun pair => decide (x < pair.2)) T < T.length := by
    apply List.findIdx_lt_length_of_exists
    refine ⟨T.getLast hT1, hlastmem, ?_⟩
    show decide (x < (T.getLast hT1).2) = true
    rw [hlasthi]
    exact decide_eq_true hxhi
  rw [List.get?_eq_get hj]
  exact ⟨_, rfl⟩

theorem popTop_mem (q : List HuffmanNode) :
    ∀ (n : HuffmanNode) (rest : List HuffmanNode),
      popTop q = some (n, rest) → n ∈ q ∧ ∀ x ∈ rest, x ∈ q := by
  induction q with
  | nil =>
      intro n rest h
      exact absurd h (by simp [popTop])
  | cons a q ih =>
      intro n rest h
      unfold popTop at h
      cases hp : popTop q with
      | none =>
          rw [hp] at h
          dsimp only at h
          injection h with h2
          injection h2 with h3 h4
          subst h3
          subst h4
          exact ⟨List.mem_cons_self a q, by intro x hx; cases hx⟩
      | some pr =>
          obtain ⟨b, others⟩ := pr
          rw [hp] at h
          dsimp only at h
          obtain ⟨hb, hoth⟩ := ih b others hp
          by_cases hcmp : a.logit < b.logit
          · rw [if_pos hcmp] at h
            injection h with h2
            injection h2 with h3 h4
            subst h3
            subst h4
            refine ⟨List.mem_cons_of_mem a hb, ?_⟩
            intro x hx
            rcases List.mem_cons.mp hx with rfl | hx2
            · exact List.mem_cons_self _ _
            · exact List.mem_cons_of_mem a (hoth x hx2)
          · rw [if_neg hcmp] at h
            injection h with h2
            injection h2 with h3 h4
            subst h3
            subst h4
            exact ⟨List.mem_cons_self a q, fun x hx => List.mem_cons_of_mem a hx⟩

theorem mergeLoop_tokens (fuel : ℕ) :
    ∀ (q : List HuffmanNode) (n : HuffmanNode), n ∈ mergeLoop fuel q →
      ∀ t, t ∈ nodeTokens n → ∃ y ∈ q, t ∈ nodeTokens y := by
  induction fuel with
  | zero =>
      intro q n hn t ht
      exact ⟨n, hn, ht⟩
  | succ fuel ih =>
      intro q n hn t ht
      unfold mergeLoop at hn
      by_cases hlen : q.length ≤ 1
      · rw [if_pos hlen] at hn
        exact ⟨n, hn, ht⟩
      · rw [if_neg hlen] at hn
        cases hp1 : popTop q with
        | none =>
            rw [hp1] at hn
            exact ⟨n, hn, ht⟩
        | some pr1 =>
            obtain ⟨left, q1⟩ := pr1
            rw [hp1] at hn
            dsimp only at hn
            cases hp2 : popTop q1 with
            | none =>
                rw [hp2] at hn
                exact ⟨n, hn, ht⟩
            | some pr2 =>
                obtain ⟨right, q2⟩ := pr2
                rw [hp2] at hn
                dsimp only at hn
                obtain ⟨hl, hq1⟩ := popTop_mem q left q1 hp1
                obtain ⟨hr, hq2⟩ := popTop_mem q1 right q2 hp2
                obtain ⟨y, hy, hty⟩ := ih _ n hn t ht
                rcases List.mem_append.mp hy with hy2 | hym
                · exact ⟨y, hq1 y (hq2 y hy2), hty⟩
                · rw [List.mem_singleton] at hym
                  subst hym
                  simp only [nodeTokens] at hty
                  rcases List.mem_append.mp hty with htl | htr
                  · exact ⟨left, hl, htl⟩
                  · exact ⟨right, hq1 right hr, htr⟩

theorem generate_codes_fst (node : HuffmanNode) :
    ∀ path : List Bool,
      (generateHuffmanCodesRecursively node path).map Prod.fst
        = nodeTokens node := by
  induction node with
  | leaf t w =>
      intro path
      rfl
  | merged w l r ihl ihr =>
      intro path
      simp only [generateHuffmanCodesRecursively, nodeTokens, List.map_append,
        ihl, ihr]

theorem huffmanCodes_token_mem (tls : List (Token × ℚ)) (t : Token)
    (h : t ∈ (huffmanCodes tls).map Prod.fst) : t ∈ tls.map Prod.fst := by
  unfold huffmanCodes at h
  cases hp : popTop (mergeHuffmanNodes (buildHuffmanTree tls)) with
  | none =>
      rw [hp] at h
      simp at h
  | some pr =>
      obtain ⟨root, rest0⟩ := pr
      rw [hp] at h
      dsimp only at h
      rw [generate_codes_fst] at h
      obtain ⟨hrootmem, _⟩ := popTop_mem _ root rest0 hp
      unfold mergeHuffmanNodes at hrootmem
      obtain ⟨y, hy, hty⟩ := mergeLoop_tokens _ _ root hrootmem t h
      unfold buildHuffmanTree at hy
      obtain ⟨p, hpmem, rfl⟩ := List.mem_map.mp hy
      simp only [nodeTokens, List.mem_singleton] at hty
      rw [hty]
      exact List.mem_map_of_mem Prod.fst hpmem

theorem lookup_eq_none_of_not_mem (l : List (Token × List Bool)) (t : Token)
    (h : t ∉ l.map Prod.fst) : l.lookup t = none := by
  induction l with
  | nil => rfl
  | cons a l ih =>
      simp only [List.map_cons, List.mem_cons, not_or] at h
      rw [List.lookup_cons]
      have hb : (t == a.1) = false := by
        simp only [beq_eq_false_iff_ne, ne_eq]
        exact h.1
      rw [hb]
      exact ih h.2

/-! ## The claims -/

section ConcreteEvaluation

attribute [local semireducible] Rat.mul Rat.add Rat.inv Rat.sub Rat.ofScientific

/-- C1 (counterexample): with model `Mc1` the ASCII-NUL token is sampled on
the first arithmetic step, generation stops after one token, and the decoded
bit stream `[true, true]` does not begin with the 3-bit message
`[true, true, false]`: the unconditional round-trip claim fails. -/
theorem c1_nul_truncates :
    arithmeticEncode Mc1 1 2 2 [0] [true, true, false] 5 = Except.ok [1]
    ∧ arithmeticDecode Mc1 1 2 2 [0] [1] = Except.ok [true, true]
    ∧ ¬ ∃ tail, arithmeticDecode Mc1 1 2 2 [0] [1]
        = Except.ok ([true, true, false] ++ tail) := by
  refine ⟨rfl, rfl, ?_⟩
  rintro ⟨tail, h⟩
  rw [show arithmeticDecode Mc1 1 2 2 [0] [1] = Except.ok [true, true]
    from rfl] at h
  have hlen := congrArg List.length (Except.ok.inj h)
  simp only [List.length_cons, List.length_nil, List.length_append] at hlen
  omega

/-- C1 (amended): the prompted arithmetic round trip holds for non-empty
messages under the side condition that no emitted cover token is the
`getAsciiNul` token: the decoded bit stream begins with the message `m`,
followed by window padding and the bits the greedy sentence-finishing
tokens decode to.  (A non-empty message makes the first iteration an
arithmetic one, which clears the encoder's first-run flag; an all-greedy
run keeps the flag set and re-feeds the context tokens every iteration, so
its conditioning histories diverge from the decoder's.) -/
theorem arithmetic_round_trip (M : Model) (τ : ℚ) (topK P : ℕ)
    (contextTokens : List Token) (m : List Bool) (fuel : ℕ) (ts : List Token)
    (hτ : 0 < τ) (hK : 1 ≤ topK) (hV : 1 ≤ M.vocabSize)
    (hctx : contextTokens ≠ []) (hm : m ≠ [])
    (hnonul : ∀ nul, getAsciiNul M = some nul → nul ∉ ts)
    (henc : arithmeticEncode M τ topK P contextTokens m fuel = Except.ok ts) :
    ∃ tail, arithmeticDecode M τ topK P contextTokens ts
      = Except.ok (m ++ tail) := by
  have hconE : contextTokens.isEmpty = false := List.isEmpty_eq_false.mpr hctx
  unfold arithmeticEncode at henc
  simp only [hconE, Bool.false_eq_true, if_false] at henc
  unfold arithmeticDecode
  simp only [hconE, Bool.false_eq_true, if_false]
  obtain ⟨tail, hdec⟩ := encodeLoop_decode M τ topK P contextTokens m fuel
    [] true 0 0 0 (2 ^ P) false ts 0 hτ hK hV
    (Nat.pos_pow_of_pos _ (by norm_num)) (le_refl _) (Nat.zero_le _)
    (Or.inl (List.length_pos.mpr hm)) (Nat.zero_le _)
    (msgWindow_val_lt m 0 P) hnonul henc
  rw [List.drop_zero] at hdec
  simp only [eq_self_iff_true, if_true, List.nil_append] at hdec
  exact ⟨tail, hdec⟩

/-- C1 (witness): a concrete round trip on model `Mrt`: the message
`[true, false]` encodes to cover tokens `[0, 1, 1, 0]`, which decode back to
a bit stream beginning with the message. -/
theorem arithmetic_round_trip_witness :
    ∃ tail, arithmeticDecode Mrt 1 2 3 [0] [0, 1, 1, 0]
      = Except.ok ([true, false] ++ tail) :=
  arithmetic_round_trip Mrt 1 2 3 [0] [true, false] 10 [0, 1, 1, 0]
    (by norm_num) (by norm_num) (by decide)
    (by decide) (by decide)
    (fun nul h => by
      rw [show getAsciiNul Mrt = some 2 from rfl] at h
      rw [← Option.some.inj h]
      decide)
    (by rfl)

/-- C3: the last-token rule as specified (and as modelled here: the C++
builds the emission range at `Arithmetic.cpp:449-453` from iterators into
two different vectors, which is undefined behavior): decoding the single
cover token `0` of model `Mrt` appends all `P = 3` bits of the new lower
bound `lo' = 0`, not merely the zero shared bits of the step. -/
theorem c3_last_token_full_bottom :
    arithmeticDecode Mrt 1 2 3 [0] [0]
      = Except.ok (Format.asBitVector (0 : ℤ) 3)
    ∧ Format.asBitVector (0 : ℤ) 3 = [false, false, false] := ⟨rfl, rfl⟩

/-- C4: the C++ guard is `rank > cumulatedProbabilities.size()`, so a token
whose rank equals the table size slips past the mismatch check and the
decoder reads `C[rank]` one entry past the end (modelled as
`Err.outOfBounds`) instead of failing with the specified DecodeMismatch:
token 2 of model `Mrt` has rank 2 while the table kept only 2 entries. -/
theorem c4_out_of_bounds_read :
    arithmeticDecode Mrt 1 2 4 [0] [2] = Except.error (Err.outOfBounds 0) := rfl

/-- C5 (counterexample): with model `Mc5` the minimum-2 keep rule retains
token 1, whose scaled weight `(1/32) * 8 / 1 = 1/4` rounds to 0, so the
cumulative table over `[0, 8)` is `[(0, 8), (1, 8)]` and the second
sub-interval has width 0: the claim clause `every width ≥ 1` fails. -/
theorem c5_zero_width_subinterval :
    buildCumTable (scaledProbabilities Mc5 1 []) 2 0 8 = [(0, 8), (1, 8)] := rfl

/-- C5 (amended): after every prompted arithmetic encoder step the interval
invariant `newLo < newHi ≤ 2^P` holds, and the cumulative table of that step
ends exactly at `hi`, keeps every entry above `lo` and is non-decreasing, so
the sub-interval widths are non-negative and sum exactly to `hi − lo`;
zero-width sub-intervals, however, can occur. -/
theorem c5_interval_invariant (M : Model) (τ : ℚ) (topK P : ℕ)
    (hist : List Token) (lo hi : ℕ) (m : List Bool) (i : ℕ) (step : ArithStep)
    (hτ : 0 < τ) (hK : 1 ≤ topK) (hV : 1 ≤ M.vocabSize)
    (hlohi : lo < hi) (hhi : hi ≤ 2 ^ P) (him : i ≤ m.length)
    (hxlo : lo ≤ Format.asLong (msgWindow m i P))
    (hxhi : Format.asLong (msgWindow m i P) < hi)
    (henc : encodeStep M τ topK P false hist lo hi m i = Except.ok step) :
    step.newLo < step.newHi ∧ step.newHi ≤ 2 ^ P
    ∧ (buildCumTable (scaledProbabilities M τ hist) topK lo hi).getLast?.map
        Prod.snd = some hi
    ∧ (∀ e ∈ buildCumTable (scaledProbabilities M τ hist) topK lo hi,
        lo + 1 ≤ e.2)
    ∧ (buildCumTable (scaledProbabilities M τ hist) topK lo hi).Pairwise
        (fun a b => a.2 ≤ b.2) := by
  obtain ⟨h1, h2, h3, h4, h5, h6, h7, h8⟩ :=
    encodeStep_sim M τ topK P hist lo hi m i 0 step hτ hK hV hlohi hhi him
      hxlo hxhi henc
  obtain ⟨hT1, hT2, hT3, hT4, hT5⟩ := buildCumTable_spec
    (scaledProbabilities M τ hist) topK lo hi
    (scaledProbabilities_nonneg M τ hτ hist)
    (scaledProbabilities_sorted M τ hist)
    (scaledProbabilities_ne_nil M τ hist hV) hK hlohi
  exact ⟨h5, h6, hT2, hT3, hT4⟩

/-- C5 (witness): the invariant at a concrete first step of model `Mrt`
encoding `[true, false]` with precision 3 over the interval `[0, 8)`. -/
theorem c5_interval_invariant_witness :
    (0:ℕ) < 5 ∧ 5 ≤ 2 ^ 3
    ∧ (buildCumTable (scaledProbabilities Mrt 1 [0]) 2 0 8).getLast?.map
        Prod.snd = some 8
    ∧ (∀ e ∈ buildCumTable (scaledProbabilities Mrt 1 [0]) 2 0 8,
        0 + 1 ≤ e.2)
    ∧ (buildCumTable (scaledProbabilities Mrt 1 [0]) 2 0 8).Pairwise
        (fun a b => a.2 ≤ b.2) :=
  c5_interval_invariant Mrt 1 2 3 [0] 0 8 [true, false] 0
    { sampledToken := 0, selectedSubinterval := 0, numberOfEncodedBits := 0,
      bottomBits := [false, false, false], topBits := [true, false, false],
      newLo := 0, newHi := 5 }
    (by norm_num) (by norm_num) (by decide) (by norm_num) (by norm_num)
    (by norm_num) (Nat.zero_le _) (by decide) (by rfl)

/-- C6: the C++ priority queue compares nodes with `<`, so it serves the
LARGEST logit first and `mergeHuffmanNodes` merges the two largest nodes;
on the `4 = 2^2` weights 8, 4, 2, 1 the resulting degenerate tree gives
token 0 a code of length 3 > k = 2, refuting the claimed depth bound (the
claim describes textbook lowest-first merging). -/
theorem c6_max_heap_depth :
    (huffmanCodes [(0, 8), (1, 4), (2, 2), (3, 1)]).lookup 0
      = some [false, false, false]
    ∧ ¬ ((3:ℕ) ≤ 2) := ⟨rfl, by omega⟩

/-- C7 (counterexample): token 2 of model `Mrt` is outside the top `2^1`
tokens, yet `huffman_decode` returns the empty bit list instead of failing:
the C++ `unordered_map::operator[]` default-constructs an empty code, and
the function has no failure path (its return type has no error case). -/
theorem c7_no_mismatch_error :
    (2 : Token) ∉ (getTopProbabilities Mrt [] 1).map Prod.fst
    ∧ huffmanDecode Mrt 1 [] [2] = [] := by
  refine ⟨?_, rfl⟩
  decide

/-- C7 (amended): a cover token outside the per-step top-`2^k` list has no
code in the per-step Huffman tree, and `huffman_decode` silently appends
nothing for it, continuing with the remaining tokens; no error is raised. -/
theorem c7_unknown_token_empty (M : Model) (k : ℕ) (hist : List Token)
    (t : Token) (rest : List Token)
    (h : t ∉ (getTopProbabilities M hist k).map Prod.fst) :
    huffmanDecode M k hist (t :: rest)
      = huffmanDecode M k (hist ++ [t]) rest := by
  have hnone : (huffmanCodes (getTopProbabilities M hist k)).lookup t
      = none := by
    apply lookup_eq_none_of_not_mem
    intro hmem
    exact h (huffmanCodes_token_mem _ t hmem)
  show ((huffmanCodes (getTopProbabilities M hist k)).lookup t).getD []
      ++ huffmanDecode M k (hist ++ [t]) rest = _
  rw [hnone, Option.getD_none, List.nil_append]

/-- C7 (witness): the amended statement at the concrete counterexample
token. -/
theorem c7_unknown_token_empty_witness :
    huffmanDecode Mrt 1 [] [2] = huffmanDecode Mrt 1 ([] ++ [2]) [] :=
  c7_unknown_token_empty Mrt 1 [] 2 [] (by decide)

/-- C9 (counterexample): `τ = 0`, `top_k = 0` and `P = 0` all violate the
spec's parameter contract, yet prompted `arithmetic_encode` succeeds: no
entry point validates its parameters (no InvalidParameter error exists
anywhere in the code). -/
theorem c9_invalid_params_accepted :
    arithmeticEncode Mrt 0 0 0 [0] [] 2 = Except.ok [0] := rfl

/-- C9 (amended): the codec performs no parameter validation at all: on an
empty message in prompted mode the encoder returns the same successful
output for every temperature, top-k and precision, valid or not. -/
theorem c9_no_validation (τ : ℚ) (topK P : ℕ) :
    arithmeticEncode Mrt τ topK P [0] [] 2 = Except.ok [0] := rfl

/-- C10 (counterexample): the claimed failure condition — a vocabulary with
no token detokenizing to `U+0000` — is wrong.  In model `Mc10e` no token
detokenizes to `U+0000` (token 0 renders `"a"`, token 1 renders the empty
string), yet `getAsciiNul` SUCCEEDS, returning token 1, because the
comparison literal `"\u0000"` of LlamaCpp.cpp line 70 decays to the empty
null-terminated byte string and matches the empty detokenization; prompted
`arithmetic_encode` then succeeds instead of failing. -/
theorem c10_empty_string_matched :
    (∀ t < Mc10e.vocabSize, Mc10e.detok t ≠ [0])
    ∧ getAsciiNul Mc10e = some 1
    ∧ arithmeticEncode Mc10e 1 2 4 [0] [] 2 = Except.ok [0] :=
  ⟨by decide, rfl, rfl⟩

/-- C10 (amended): `getAsciiNul` runs after every sampled token even in
prompted mode, but through the `std::string == const char*` comparison it
looks for a token with EMPTY detokenization, not a `U+0000` token; a model
in which no token detokenizes to the empty string makes prompted
`arithmetic_encode` fail on its first iteration, for every message and
parameter setting. -/
theorem c10_missing_nul_fails (M : Model) (τ : ℚ) (topK P : ℕ)
    (ctx : List Token) (m : List Bool) (fuel : ℕ)
    (hτ : 0 < τ) (hK : 1 ≤ topK) (hV : 1 ≤ M.vocabSize)
    (hctx : ctx ≠ []) (hnul : getAsciiNul M = none) (hfuel : 1 ≤ fuel) :
    arithmeticEncode M τ topK P ctx m fuel = Except.error Err.noAsciiNul := by
  obtain ⟨fuel, rfl⟩ : ∃ f, fuel = f + 1 := ⟨fuel - 1, by omega⟩
  have hconE : ctx.isEmpty = false := List.isEmpty_eq_false.mpr hctx
  unfold arithmeticEncode
  simp only [hconE, Bool.false_eq_true, if_false]
  unfold encodeLoop
  rw [if_pos (by simp)]
  simp only [eq_self_iff_true, if_true, List.nil_append]
  by_cases him : 0 < m.length
  · rw [if_pos him]
    obtain ⟨step, hs⟩ := encodeStep_ok M τ topK P ctx 0 (2 ^ P) m 0
      hτ hK hV (Nat.pos_pow_of_pos _ (by norm_num)) (le_refl _)
      (Nat.zero_le _) (Nat.zero_le _) (msgWindow_val_lt m 0 P)
    rw [hs, exceptBind_ok, hnul]
    rfl
  · rw [if_neg him]
    obtain ⟨tok, hg⟩ := getTopProbability_isSome M ctx hV
    rw [hg]
    dsimp only
    rw [hnul]
    rfl

/-- C10 (witness): in the one-token model `Mc10` no token detokenizes to the
empty string, and prompted encoding of the empty message fails with
`noAsciiNul`. -/
theorem c10_missing_nul_fails_witness :
    arithmeticEncode Mc10 1 2 4 [0] [] 1 = Except.error Err.noAsciiNul :=
  c10_missing_nul_fails Mc10 1 2 4 [0] [] 1 (by norm_num) (by norm_num)
    (by decide) (by decide) rfl (by norm_num)

end ConcreteEvaluation

end HiPS
